import Mathlib

/-!
Verification development for the haptic-persist backend (Express server in
`apps/backend`): virtual-path resolution, filesystem routes, directory tree
building, and WebSocket change broadcasting.

The server runs Node.js on a POSIX filesystem, so `path.sep = '/'` and the
`path` module functions are the POSIX variants.  JavaScript strings are
modelled by Lean `String`; all character-level operations are defined over
`String.data` (`List Char`) so that they are fully transparent to the kernel.
JS string indices are UTF-16 code units while Lean indexes code points; the
strings involved (route names, path separators) are ASCII, where the two
coincide.
-/

namespace HapticSpec

/-! ## Character-level string helpers (JS / Node.js semantics) -/

/-- `JS String.prototype.trim`: strip leading and trailing whitespace. -/
def trimChars (l : List Char) : List Char :=
  ((l.dropWhile Char.isWhitespace).reverse.dropWhile Char.isWhitespace).reverse

/-- Embedding of JS `s.trim()`. -/
def jsTrim (s : String) : String := ⟨trimChars s.data⟩

/-- Embedding of JS `s.replace(/\\/g, '/')`. -/
def jsReplaceBackslashes (s : String) : String :=
  ⟨s.data.map (fun c => if c = '\\' then '/' else c)⟩

/-- Helper for collapsing runs of slashes; the `Bool` records whether the
previous emitted character was a `'/'`. -/
def squeezeSlashAux : Bool → List Char → List Char
  | _, [] => []
  | prev, c :: rest =>
    if c = '/' then
      if prev then squeezeSlashAux true rest
      else '/' :: squeezeSlashAux true rest
    else c :: squeezeSlashAux false rest

/-- Embedding of JS `s.replace(/\/+/g, '/')`. -/
def jsCollapseSlashes (s : String) : String := ⟨squeezeSlashAux false s.data⟩

/-- Embedding of JS `s.startsWith(pre)` (and of POSIX `path.isAbsolute` when
`pre = "/"`). -/
def strStartsWith (s pre : String) : Bool := pre.data.isPrefixOf s.data

/-- Embedding of JS `s.endsWith(suf)`. -/
def strEndsWith (s suf : String) : Bool := suf.data.isSuffixOf s.data

/-- Embedding of JS `s.replace(/^\//, '')`: drop a single leading slash. -/
def dropOneLeadingSlash (s : String) : String :=
  match s.data with
  | '/' :: rest => ⟨rest⟩
  | _ => s

/-! ## POSIX path model (Node.js `path` module) -/

/-- Split a character list at `'/'`; groups may be empty (the result is never
the empty list of groups). -/
def splitOnSlash : List Char → List (List Char)
  | [] => [[]]
  | c :: rest =>
    if c = '/' then [] :: splitOnSlash rest
    else
      match splitOnSlash rest with
      | [] => [[c]]
      | g :: gs => (c :: g) :: gs

/-- Embedding of JS `s.split('/').filter((segment) => segment.length > 0)`. -/
def splitPathSegs (s : String) : List String :=
  ((splitOnSlash s.data).filter (· ≠ [])).map String.mk

/-- Concatenate path segments with `'/'` between them (no leading slash). -/
def joinSegsChars : List String → List Char
  | [] => []
  | [s] => s.data
  | s :: rest => s.data ++ '/' :: joinSegsChars rest

/-- Render a segment list back into a path string, as Node's
`normalizeString` callers do: an empty absolute path is `"/"`, an empty
relative path is `"."`. -/
def renderPath (isAbs : Bool) (segs : List String) : String :=
  match segs, isAbs with
  | [], true => "/"
  | [], false => "."
  | _ :: _, true => ⟨'/' :: joinSegsChars segs⟩
  | _ :: _, false => ⟨joinSegsChars segs⟩

/-- The segment-collapsing loop of Node's `path.posix` `normalizeString`:
`"."` segments are dropped and `".."` pops the previous segment; when
`allowAbove` is set (relative paths) unmatched `".."` segments are kept,
otherwise (absolute paths) they are discarded at the root.  The accumulator
holds the processed segments in reverse order. -/
def collapseGo (allowAbove : Bool) : List String → List String → List String
  | acc, [] => acc.reverse
  | acc, s :: rest =>
    if s = "." then collapseGo allowAbove acc rest
    else if s = ".." then
      match acc with
      | [] =>
        if allowAbove then collapseGo allowAbove [".."] rest
        else collapseGo allowAbove [] rest
      | a :: as =>
        if a = ".." then collapseGo allowAbove (".." :: a :: as) rest
        else collapseGo allowAbove as rest
    else collapseGo allowAbove (s :: acc) rest

/-- Collapse `"."`/`".."` segments; absolute paths clamp `".."` at the root,
relative paths keep leading `".."` segments. -/
def collapseDots (isAbs : Bool) (segs : List String) : List String :=
  collapseGo (!isAbs) [] segs

/-- Embedding of POSIX `path.normalize` (trailing-separator preservation is
omitted: every call site in the sources passes either `path.sep` itself or the
output of `path.join`, which never carries a trailing separator). -/
def pathNormalize (s : String) : String :=
  let isAbs := strStartsWith s "/"
  renderPath isAbs (collapseDots isAbs (splitPathSegs s))

/-- Embedding of POSIX `path.join`: concatenate the non-empty parts with
`'/'` and normalize; with nothing to join the result is `"."`. -/
def pathJoin (parts : List String) : String :=
  let nonempty := parts.filter (· ≠ "")
  match nonempty with
  | [] => "."
  | _ :: _ => pathNormalize ⟨joinSegsChars nonempty⟩

/-- The suffix of the part list starting at the last absolute part, if any
(Node's `path.resolve` walks the parts right to left and stops at the first
absolute one). -/
def suffixFromLastAbs : List String → Option (List String)
  | [] => none
  | p :: rest =>
    match suffixFromLastAbs rest with
    | some l => some l
    | none => if strStartsWith p "/" then some (p :: rest) else none

/-- Embedding of POSIX `path.resolve(...parts)` with working directory
`cwd` (Node prepends `process.cwd()` when no part is absolute). -/
def pathResolve (cwd : String) (parts : List String) : String :=
  let parts := parts.filter (· ≠ "")
  match suffixFromLastAbs parts with
  | some tail =>
    renderPath true (collapseDots true (splitPathSegs ⟨joinSegsChars tail⟩))
  | none =>
    let isAbs := strStartsWith cwd "/"
    renderPath isAbs (collapseDots isAbs (splitPathSegs ⟨joinSegsChars (cwd :: parts)⟩))

/-! ## Path preparation and resolution
(`prepareOperationPath` / `resolveFsPathFromApiPath`, identical in both
backend variants). -/

/-- Server configuration: `cwd` is the Node process working directory
(`process.cwd()`, always absolute in practice), `volumePath` the
`VOLUME_PATH` environment value (default `"./Haptic"`), `rootName` the
`ROOT_NAME` environment value (default `"Haptic"`). -/
structure Config where
  cwd : String
  volumePath : String
  rootName : String
deriving Repr, DecidableEq

/-- The object returned by `prepareOperationPath`.  The JS
`typeof rawPath !== 'string'` rejection is outside this model because inputs
are typed `String` here. -/
structure Prepared where
  targetPath : String
  normalizedPath : String
  original : String
deriving Repr, DecidableEq

/-- Embedding of the JS regex test `/^[a-zA-Z]:/.test(segments[0])`. -/
def isWindowsDriveSeg (s : String) : Bool :=
  match s.data with
  | c1 :: c2 :: _ => c1.isAlpha && c2 = ':'
  | _ => false

/-- The tail of `prepareOperationPath` once the `cleaned` string is in hand:
the empty / separator-root special cases, the split into segments, and the
rebuild of a normalized path with `path.join` / `path.normalize`
(`path.normalize(path.sep)` for the root case). -/
def prepareFromCleaned (cleaned trimmed : String) : Option Prepared :=
  if cleaned = "" then none
  else if cleaned = "/" then
    some ⟨pathNormalize "/", pathNormalize "/", trimmed⟩
  else
    match splitPathSegs cleaned with
    | [] => none
    | s0 :: rest =>
      let startsWithRoot := strStartsWith cleaned "/"
      let hasWindowsDrive := isWindowsDriveSeg s0
      let fsPath :=
        if startsWithRoot && !hasWindowsDrive
        then pathJoin ("/" :: s0 :: rest)
        else pathJoin (s0 :: rest)
      let targetPath := pathNormalize fsPath
      some ⟨targetPath, targetPath, trimmed⟩

/-- Embedding of `prepareOperationPath` (`apps/backend`): trim, normalize
slashes, strip one trailing slash, then hand over to
`prepareFromCleaned`. -/
def prepareOperationPath (rawPath : String) : Option Prepared :=
  let trimmed := jsTrim rawPath
  if trimmed = "" then none
  else
    let normalizedSlashes := jsCollapseSlashes (jsReplaceBackslashes trimmed)
    let cleaned :=
      if normalizedSlashes ≠ "/" ∧ strEndsWith normalizedSlashes "/" = true
      then ⟨normalizedSlashes.data.dropLast⟩
      else normalizedSlashes
    prepareFromCleaned cleaned trimmed

/-- `path.resolve(VOLUME_PATH)`, recomputed by the server wherever the
containment check runs. -/
def volResolved (cfg : Config) : String := pathResolve cfg.cwd [cfg.volumePath]

/-- The containment test
`fsPath.startsWith(volResolved + path.sep) || fsPath === volResolved`:
a full-path-component check (the separator is appended before comparing). -/
def isContained (vol fsPath : String) : Bool :=
  strStartsWith fsPath (vol ++ "/") || fsPath == vol

/-- The shared tail of `resolveFsPathFromApiPath`:
`path.resolve(VOLUME_PATH, relativeInsideVolume)` followed by the
containment check, whose violation is the thrown error (`none` here). -/
def resolveAgainstVolume (cfg : Config) (rel : String) : Option String :=
  if isContained (volResolved cfg) (pathResolve cfg.cwd [cfg.volumePath, rel]) then
    some (pathResolve cfg.cwd [cfg.volumePath, rel])
  else none

/-- The body of `resolveFsPathFromApiPath` after preparation, acting on
`normalized` (the prepared path with backslashes normalized): choose the
path interpretation (API-prefixed, OS-absolute already inside the volume,
OS-absolute forced under the volume, or relative) and resolve it, with
`apiRoot` standing for the JS local `apiPrefix = '/' + ROOT_NAME`. -/
def resolveCore (cfg : Config) (normalized : String) : Option String :=
  if normalized = "/" ++ cfg.rootName then resolveAgainstVolume cfg ""
  else if strStartsWith normalized (("/" ++ cfg.rootName) ++ "/") then
    resolveAgainstVolume cfg
      ⟨normalized.data.drop (("/" ++ cfg.rootName).data.length + 1)⟩
  else if strStartsWith normalized "/" then
    if isContained (volResolved cfg) (pathResolve cfg.cwd [normalized]) then
      some (pathResolve cfg.cwd [normalized])
    else resolveAgainstVolume cfg (dropOneLeadingSlash normalized)
  else resolveAgainstVolume cfg normalized

/-- Outcome of `resolveFsPathFromApiPath`: `invalid` is the `null` return,
`escapeError` the thrown `Error('Resolved path escapes the volume')`. -/
inductive ResolveOutcome where
  | invalid
  | escapeError
  | ok (prepared : Prepared) (fsPath : String)
deriving Repr, DecidableEq

/-- Embedding of `resolveFsPathFromApiPath`. -/
def resolveFsPathFromApiPath (cfg : Config) (rawPath : String) : ResolveOutcome :=
  match prepareOperationPath rawPath with
  | none => .invalid
  | some prepared =>
    match resolveCore cfg (jsReplaceBackslashes prepared.normalizedPath) with
    | some fsPath => .ok prepared fsPath
    | none => .escapeError

/-! ## Filesystem model

A snapshot of the filesystem as a tree rooted at `"/"`; operations address
nodes by the segment list of a normalized absolute path
(`splitPathSegs fsPath`).  Error codes follow `fs.promises` / POSIX errno
semantics as far as the routes distinguish them. -/

inductive FsTree where
  | file (content : String)
  | dir (children : List (String × FsTree))
deriving Repr

/-- Filesystem error codes observed by the routes. -/
inductive FsErr where
  | enoent
  | enotdir
  | eexist
  | eisdir
  | enotempty
  | eperm
deriving Repr, DecidableEq

/-- First entry named `n` among a directory's children. -/
def lookupEntry (cs : List (String × FsTree)) (n : String) : Option FsTree :=
  match cs.find? (fun e => e.1 == n) with
  | some e => some e.2
  | none => none

/-- Replace the subtree of every entry named `n`. -/
def replaceEntry (cs : List (String × FsTree)) (n : String) (t : FsTree) :
    List (String × FsTree) :=
  cs.map (fun e => if e.1 == n then (n, t) else e)

/-- Remove every entry named `n`. -/
def removeEntry (cs : List (String × FsTree)) (n : String) : List (String × FsTree) :=
  cs.filter (fun e => !(e.1 == n))

/-- `fs.stat`: walk the path; a missing child gives `ENOENT`, a file hit
mid-path gives `ENOTDIR`. -/
def statFs : List String → FsTree → Except FsErr FsTree
  | [], t => .ok t
  | _ :: _, .file _ => .error .enotdir
  | n :: rest, .dir cs =>
    match lookupEntry cs n with
    | none => .error .enoent
    | some t' => statFs rest t'

/-- `fs.writeFile`: create or replace the file at the path (the full-content
replacement the spec calls atomic with respect to readers); a directory at
the target gives `EISDIR`, a missing or non-directory parent `ENOENT` /
`ENOTDIR`. -/
def writeFileFs : List String → String → FsTree → Except FsErr FsTree
  | [], c, .file _ => .ok (.file c)
  | [], _, .dir _ => .error .eisdir
  | _ :: _, _, .file _ => .error .enotdir
  | n :: rest, c, .dir cs =>
    match lookupEntry cs n with
    | some t' =>
      match writeFileFs rest c t' with
      | .ok t'' => .ok (.dir (replaceEntry cs n t''))
      | .error e => .error e
    | none =>
      match rest with
      | [] => .ok (.dir (cs ++ [(n, .file c)]))
      | _ :: _ => .error .enoent

/-- `fs.mkdir(..., { recursive: true })`: create the directory and all
missing ancestors; idempotent on an existing directory, fails if a file is
in the way. -/
def mkdirpFs : List String → FsTree → Except FsErr FsTree
  | [], .dir cs => .ok (.dir cs)
  | [], .file _ => .error .eexist
  | _ :: _, .file _ => .error .enotdir
  | n :: rest, .dir cs =>
    match lookupEntry cs n with
    | some t' =>
      match mkdirpFs rest t' with
      | .ok t'' => .ok (.dir (replaceEntry cs n t''))
      | .error e => .error e
    | none =>
      match mkdirpFs rest (.dir []) with
      | .ok t'' => .ok (.dir (cs ++ [(n, t'')]))
      | .error e => .error e

/-- `fs.readdir` (plain, no filtering): the raw child names, hidden entries
included. -/
def readdirFs (segs : List String) (t : FsTree) : Except FsErr (List String) :=
  match statFs segs t with
  | .ok (.dir cs) => .ok (cs.map (·.1))
  | .ok (.file _) => .error .enotdir
  | .error e => .error e

/-- `fs.unlink`: remove the file at the path. -/
def unlinkFs : List String → FsTree → Except FsErr FsTree
  | [], _ => .error .eperm
  | [n], .dir cs =>
    match lookupEntry cs n with
    | some (.file _) => .ok (.dir (removeEntry cs n))
    | some (.dir _) => .error .eisdir
    | none => .error .enoent
  | _ :: _, .file _ => .error .enotdir
  | n :: rest, .dir cs =>
    match lookupEntry cs n with
    | some t' =>
      match unlinkFs rest t' with
      | .ok t'' => .ok (.dir (replaceEntry cs n t''))
      | .error e => .error e
    | none => .error .enoent

/-- `fs.rmdir(targetPath, { recursive })`: remove the directory at the path;
without `recursive` a non-empty directory gives `ENOTEMPTY`. -/
def rmdirFs (recursive : Bool) : List String → FsTree → Except FsErr FsTree
  | [], _ => .error .eperm
  | [n], .dir cs =>
    match lookupEntry cs n with
    | some (.dir cs') =>
      if recursive || cs'.isEmpty then .ok (.dir (removeEntry cs n))
      else .error .enotempty
    | some (.file _) => .error .enotdir
    | none => .error .enoent
  | _ :: _, .file _ => .error .enotdir
  | n :: rest, .dir cs =>
    match lookupEntry cs n with
    | some t' =>
      match rmdirFs recursive rest t' with
      | .ok t'' => .ok (.dir (replaceEntry cs n t''))
      | .error e => .error e
    | none => .error .enoent

/-! ## Change events and WebSocket broadcast -/

/-- `changeType` values of a broadcast `file_change` message. -/
inductive ChangeType where
  | created
  | updated
  | deleted
deriving Repr, DecidableEq

/-- A broadcast change event (the wall-clock `timestamp` field and the JSON
serialization are abstracted away; `path` carries
`prepared.normalizedPath`). -/
structure ChangeEvent where
  collection : String
  changeType : ChangeType
  path : String
deriving Repr, DecidableEq

/-- `WebSocket.OPEN` (the `ws` readyState constant). -/
def WS_OPEN : Nat := 1

/-- A connected WebSocket client: its transport state, the collection set on
it by a `subscribe` message (absent before one arrives), and the messages
delivered to it so far. -/
structure Client where
  readyState : Nat
  collection : Option String
  inbox : List ChangeEvent
deriving Repr, DecidableEq

/-- The `subscribe` message handler: `ws.collection = data.collection`. -/
def subscribeClient (c : Client) (collection : String) : Client :=
  { c with collection := some collection }

/-- Embedding of `broadcastChange`: send the message to every client in the
set whose `readyState` is `OPEN`, regardless of its subscribed collection. -/
def broadcastChange (clients : List Client) (ev : ChangeEvent) : List Client :=
  clients.map (fun c =>
    if c.readyState = WS_OPEN then { c with inbox := c.inbox ++ [ev] } else c)

/-! ## Routes

Each mutating route is a pure function from a filesystem snapshot and the
request parameters to a response tag, the new snapshot, and the list of
change events it published (the route passes each to `broadcastChange`).
`express.json` body parsing, the content-type check, and response
serialization are outside the model; absent JS body fields are falsy, so an
absent `path` is modelled by `""`. -/

/-- Response outcomes, tagged finely enough to keep the routes'
distinguishable errors distinguishable. -/
inductive Resp where
  | missingParam
  | invalidPath
  | escape
  | notFound
  | notADir
  | forbiddenRoot
  | conflictDir
  | conflictFile
  | notEmptyResp
  | fsFailure
  | createdResp
  | updatedResp
  | deletedDir
  | deletedFile
deriving Repr, DecidableEq

/-- HTTP status of each outcome, as the routes send it. -/
def statusOf : Resp → Nat
  | .missingParam => 400
  | .invalidPath => 400
  | .notADir => 400
  | .notEmptyResp => 400
  | .escape => 500
  | .fsFailure => 500
  | .notFound => 404
  | .forbiddenRoot => 403
  | .conflictDir => 409
  | .conflictFile => 409
  | .createdResp => 201
  | .updatedResp => 200
  | .deletedDir => 200
  | .deletedFile => 200

/-- Result of one route invocation. -/
structure RouteOut where
  resp : Resp
  fsys : FsTree
  events : List ChangeEvent
deriving Repr

/-- Shared tail of `POST /markdown`: `fs.mkdir(path.dirname(fsPath),
{ recursive: true })` (for a normalized absolute path, `path.dirname`
drops the last segment), then `fs.writeFile`, then one broadcast. -/
def postWrite (cfg : Config) (fsys : FsTree) (prepared : Prepared)
    (segs : List String) (markdown : String) (isUpdate : Bool) : RouteOut :=
  match mkdirpFs segs.dropLast fsys with
  | .error _ => ⟨.fsFailure, fsys, []⟩
  | .ok fs1 =>
    match writeFileFs segs markdown fs1 with
    | .error _ => ⟨.fsFailure, fs1, []⟩
    | .ok fs2 =>
      ⟨if isUpdate then .updatedResp else .createdResp, fs2,
       [⟨cfg.rootName, if isUpdate then .updated else .created, prepared.normalizedPath⟩]⟩

/-- `POST /markdown` (create-or-update write): resolve, probe prior
existence with `fs.stat` (`ENOENT` means create, anything else rethrows),
create intermediate directories, write, broadcast. -/
def postMarkdown (cfg : Config) (fsys : FsTree) (filePath markdown : String) :
    RouteOut :=
  if filePath = "" then ⟨.missingParam, fsys, []⟩
  else
    match resolveFsPathFromApiPath cfg filePath with
    | .invalid => ⟨.invalidPath, fsys, []⟩
    | .escapeError => ⟨.escape, fsys, []⟩
    | .ok prepared fsPath =>
      match statFs (splitPathSegs fsPath) fsys with
      | .error .enoent => postWrite cfg fsys prepared (splitPathSegs fsPath) markdown false
      | .error _ => ⟨.fsFailure, fsys, []⟩
      | .ok _ => postWrite cfg fsys prepared (splitPathSegs fsPath) markdown true

/-- `PUT /markdown` (update-only write): like POST but fails `404` when the
target does not exist and never creates directories. -/
def putMarkdown (cfg : Config) (fsys : FsTree) (filePath markdown : String) :
    RouteOut :=
  if filePath = "" then ⟨.missingParam, fsys, []⟩
  else
    match resolveFsPathFromApiPath cfg filePath with
    | .invalid => ⟨.invalidPath, fsys, []⟩
    | .escapeError => ⟨.escape, fsys, []⟩
    | .ok prepared fsPath =>
      match statFs (splitPathSegs fsPath) fsys with
      | .error .enoent => ⟨.notFound, fsys, []⟩
      | .error _ => ⟨.fsFailure, fsys, []⟩
      | .ok _ =>
        match writeFileFs (splitPathSegs fsPath) markdown fsys with
        | .error _ => ⟨.fsFailure, fsys, []⟩
        | .ok fs' =>
          ⟨.updatedResp, fs', [⟨cfg.rootName, .updated, prepared.normalizedPath⟩]⟩

/-- `POST /markdown/folder`: resolve, fail `409` if anything exists at the
target (directory and file conflicts reported with distinct messages),
otherwise `fs.mkdir(..., { recursive: true })` and broadcast. -/
def postFolder (cfg : Config) (fsys : FsTree) (folderPath : String) : RouteOut :=
  if folderPath = "" then ⟨.missingParam, fsys, []⟩
  else
    match resolveFsPathFromApiPath cfg folderPath with
    | .invalid => ⟨.invalidPath, fsys, []⟩
    | .escapeError => ⟨.escape, fsys, []⟩
    | .ok prepared fsPath =>
      match statFs (splitPathSegs fsPath) fsys with
      | .ok (.dir _) => ⟨.conflictDir, fsys, []⟩
      | .ok (.file _) => ⟨.conflictFile, fsys, []⟩
      | .error .enoent =>
        match mkdirpFs (splitPathSegs fsPath) fsys with
        | .ok fs' =>
          ⟨.createdResp, fs', [⟨cfg.rootName, .created, prepared.normalizedPath⟩]⟩
        | .error _ => ⟨.fsFailure, fsys, []⟩
      | .error _ => ⟨.fsFailure, fsys, []⟩

/-- Tail of the directory branch of `DELETE /markdown`:
`fs.rmdir(targetPath, { recursive })` then one broadcast. -/
def deleteDirTail (cfg : Config) (fsys : FsTree) (prepared : Prepared)
    (segs : List String) (recursive : Bool) : RouteOut :=
  match rmdirFs recursive segs fsys with
  | .ok fs' => ⟨.deletedDir, fs', [⟨cfg.rootName, .deleted, prepared.normalizedPath⟩]⟩
  | .error _ => ⟨.fsFailure, fsys, []⟩

/-- `DELETE /markdown`: resolve, `404` if absent, `403` if the target is
exactly the resolved volume root, refuse non-recursive deletion of a
non-empty directory (raw `fs.readdir`, hidden entries included), otherwise
remove and broadcast. -/
def deleteMarkdown (cfg : Config) (fsys : FsTree) (rawPath : String)
    (recursive : Bool) : RouteOut :=
  if rawPath = "" then ⟨.missingParam, fsys, []⟩
  else
    match resolveFsPathFromApiPath cfg rawPath with
    | .invalid => ⟨.invalidPath, fsys, []⟩
    | .escapeError => ⟨.escape, fsys, []⟩
    | .ok prepared fsPath =>
      match statFs (splitPathSegs fsPath) fsys with
      | .error .enoent => ⟨.notFound, fsys, []⟩
      | .error _ => ⟨.fsFailure, fsys, []⟩
      | .ok stats =>
        if fsPath = volResolved cfg then ⟨.forbiddenRoot, fsys, []⟩
        else
          match stats with
          | .dir _ =>
            if !recursive then
              match readdirFs (splitPathSegs fsPath) fsys with
              | .error _ => ⟨.fsFailure, fsys, []⟩
              | .ok dirEntries =>
                if dirEntries.length > 0 then ⟨.notEmptyResp, fsys, []⟩
                else deleteDirTail cfg fsys prepared (splitPathSegs fsPath) recursive
            else deleteDirTail cfg fsys prepared (splitPathSegs fsPath) recursive
          | .file _ =>
            match unlinkFs (splitPathSegs fsPath) fsys with
            | .ok fs' =>
              ⟨.deletedFile, fs', [⟨cfg.rootName, .deleted, prepared.normalizedPath⟩]⟩
            | .error _ => ⟨.fsFailure, fsys, []⟩

/-! ## Tree builder and flat name listing -/

/-- The comparator `a.name.localeCompare(b.name, undefined, { sensitivity:
'base' })` used for sibling ordering, shallowly embedded as comparison of
lower-cased names (case-insensitive ascending). -/
def ciLe (a b : String) : Bool := a.toLower ≤ b.toLower

/-- Embedding of `toApiPath`: re-split the relative path on the separator
and mount it under `/<ROOT_NAME>`. -/
def toApiPath (cfg : Config) (relativePath : String) : String :=
  let normalized : String := ⟨joinSegsChars (splitPathSegs relativePath)⟩
  if normalized = "" then "/" ++ cfg.rootName
  else "/" ++ cfg.rootName ++ "/" ++ normalized

/-- A node of the JSON tree returned by `buildFileTree`: files carry no
`children` field, directories carry their recursively built children. -/
structure TreeItem where
  path : String
  name : String
  children : Option (List TreeItem)
deriving Repr

/-- `dirEntries.sort(...)` on a directory's entries. -/
def sortEntries (cs : List (String × FsTree)) : List (String × FsTree) :=
  cs.mergeSort (fun a b => ciLe a.1 b.1)

/-- Embedding of `buildFileTree`: list, sort case-insensitively, skip
entries whose name starts with `.`, recurse into directories.  Called on a
file it contributes nothing (the route only calls it on directories). -/
def buildFileTree (cfg : Config) (t : FsTree) (relativeDir : String) :
    List TreeItem :=
  match t with
  | .file _ => []
  | .dir cs =>
    ((sortEntries cs).filter (fun e => !(strStartsWith e.1 "."))).attach.map
      (fun e =>
        let n := e.1.1
        let relativePath := if relativeDir = "" then n else pathJoin [relativeDir, n]
        match h : e.1.2 with
        | .file _ => { path := toApiPath cfg relativePath, name := n, children := none }
        | .dir cs' =>
          { path := toApiPath cfg relativePath, name := n,
            children := some (buildFileTree cfg (.dir cs') relativePath) })
termination_by sizeOf t
decreasing_by
  rename_i cs
  have hmem : e.1 ∈ (sortEntries cs).filter (fun e => !(strStartsWith e.1 ".")) := e.2
  have hmem2 : e.1 ∈ sortEntries cs := List.mem_of_mem_filter hmem
  have hmem3 : e.1 ∈ cs := by
    have := List.mergeSort_perm cs (fun a b => ciLe a.1 b.1)
    exact this.mem_iff.mp hmem2
  have h1 : sizeOf e.1 < sizeOf cs := List.sizeOf_lt_of_mem hmem3
  have h2 : sizeOf e.1.2 < sizeOf e.1 := by
    cases e.1 with
    | mk a b => simp
  simp only [FsTree.dir.sizeOf_spec]
  rw [h] at h2
  simp only [FsTree.dir.sizeOf_spec] at h2
  omega

/-- Result of `GET /markdown/names`. -/
inductive NamesOut where
  | errOut (r : Resp)
  | okOut (names : List String)
deriving Repr, DecidableEq

/-- The listing part of `GET /markdown/names` once a target path is fixed:
stat, require a directory, filter out hidden entries, sort
case-insensitively, return the names. -/
def namesAt (fsys : FsTree) (targetPath : String) : NamesOut :=
  match statFs (splitPathSegs targetPath) fsys with
  | .error .enoent => .errOut .notFound
  | .error _ => .errOut .fsFailure
  | .ok (.file _) => .errOut .notADir
  | .ok (.dir cs) =>
    .okOut
      (((cs.filter (fun e => !(strStartsWith e.1 "."))).mergeSort
          (fun a b => ciLe a.1 b.1)).map (·.1))

/-- `GET /markdown/names`: an absent (or falsy) `path` query targets the
volume root, otherwise the query is resolved. -/
def getNames (cfg : Config) (fsys : FsTree) (rawPath : Option String) : NamesOut :=
  match rawPath with
  | none => namesAt fsys (volResolved cfg)
  | some rp =>
    match resolveFsPathFromApiPath cfg rp with
    | .invalid => .errOut .invalidPath
    | .escapeError => .errOut .escape
    | .ok _ fsPath => namesAt fsys fsPath

/-! ## Derived predicates and concrete fixtures -/

/-- A normalized path that is rooted (starts with `/`) and whose first
segment looks like a Windows drive (`c:`): on re-preparation such a path
loses its root (the drive branch of `prepareOperationPath` joins without the
leading separator). -/
def rootedDrive (s : String) : Bool :=
  strStartsWith s "/" &&
    (match splitPathSegs s with
     | s0 :: _ => isWindowsDriveSeg s0
     | [] => false)

/-- Well-formedness of a built tree node: its name is not hidden and its
children (when present) are case-insensitively sorted and themselves
well-formed. -/
inductive ItemOk : TreeItem → Prop where
  | intro (it : TreeItem)
      (hname : strStartsWith it.name "." = false)
      (hsorted : ∀ l, it.children = some l →
        l.Pairwise (fun a b => ciLe a.name b.name = true))
      (hch : ∀ l, it.children = some l → ∀ x, x ∈ l → ItemOk x) :
      ItemOk it

/-- Segment well-formedness as produced by `prepareOperationPath`'s split:
non-empty, free of separators and backslashes. -/
def GoodSeg (s : String) : Prop := s ≠ "" ∧ '/' ∉ s.data ∧ '\\' ∉ s.data

/-- Shape of a collapsed segment list: no `"."` segment; for rooted paths no
`".."` at all, for relative paths `".."` only as a leading run. -/
def CollapsedSegs (isAbs : Bool) (segs : List String) : Prop :=
  "." ∉ segs ∧
    (if isAbs then ".." ∉ segs
     else ∃ k m, segs = List.replicate k ".." ++ m ∧ ".." ∉ m)

/-- A sample deployment: `process.cwd() = "/srv"`, default `VOLUME_PATH`
and `ROOT_NAME`, so the volume resolves to `/srv/Haptic`. -/
def sampleConfig : Config := ⟨"/srv", "./Haptic", "Haptic"⟩

/-- A sample filesystem holding just the (empty) volume root. -/
def sampleFs : FsTree := .dir [("srv", .dir [("Haptic", .dir [])])]

/-- A sample filesystem where `/srv/Haptic/d` contains only hidden
entries. -/
def sampleHiddenFs : FsTree :=
  .dir [("srv", .dir [("Haptic", .dir
    [("d", .dir [(".git", .dir []), (".env", .file "SECRET=1")])])])]

/-- A sample filesystem where `/srv/Haptic/notes/a.md` already exists. -/
def sampleNotesFs : FsTree :=
  .dir [("srv", .dir [("Haptic", .dir
    [("notes", .dir [("a.md", .file "hello")])])])]

/-! ## Lemmas: string prefixes and containment -/

theorem strStartsWith_iff {s pre : String} :
    strStartsWith s pre = true ↔ pre.data <+: s.data :=
  List.isPrefixOf_iff_prefix

theorem data_append (a b : String) : (a ++ b).data = a.data ++ b.data := rfl

theorem renderPath_abs_startsWith (segs : List String) :
    strStartsWith (renderPath true segs) "/" = true := by
  cases segs with
  | nil => decide
  | cons s rest =>
    rw [strStartsWith_iff]
    show ['/'] <+: '/' :: joinSegsChars (s :: rest)
    exact ⟨joinSegsChars (s :: rest), rfl⟩

theorem pathResolve_startsWith (cwd : String) (parts : List String)
    (hcwd : strStartsWith cwd "/" = true) :
    strStartsWith (pathResolve cwd parts) "/" = true := by
  unfold pathResolve
  cases h : suffixFromLastAbs (parts.filter (· ≠ "")) with
  | some tail => simp only [h]; exact renderPath_abs_startsWith _
  | none => simp only [h, hcwd]; exact renderPath_abs_startsWith _

theorem isContained_startsWith {vol f : String}
    (hv : strStartsWith vol "/" = true) (hc : isContained vol f = true) :
    strStartsWith f "/" = true := by
  rw [strStartsWith_iff] at hv ⊢
  unfold isContained at hc
  rcases Bool.or_eq_true_iff.mp hc with h | h
  · rw [strStartsWith_iff] at h
    refine hv.trans (List.IsPrefix.trans ?_ h)
    rw [data_append]
    exact ⟨"/".data, rfl⟩
  · rw [show f = vol from eq_of_beq h]
    exact hv

theorem resolveAgainstVolume_contained {cfg : Config} {rel f : String}
    (h : resolveAgainstVolume cfg rel = some f) :
    isContained (volResolved cfg) f = true := by
  unfold resolveAgainstVolume at h
  split at h
  · cases h; assumption
  · cases h

theorem resolveCore_contained {cfg : Config} {normalized f : String}
    (h : resolveCore cfg normalized = some f) :
    isContained (volResolved cfg) f = true := by
  unfold resolveCore at h
  split at h
  · exact resolveAgainstVolume_contained h
  · split at h
    · exact resolveAgainstVolume_contained h
    · split at h
      · split at h
        · cases h; assumption
        · exact resolveAgainstVolume_contained h
      · exact resolveAgainstVolume_contained h

/-- **C1.** Every successful resolution lands on the resolved storage root
or a strict descendant of it, where descent is the full-component check
(separator appended to the root before comparing, so `/data-evil` is not
contained in `/data`); with an absolute working directory the result is an
absolute path.  The other outcomes are the `null` rejection and the thrown
escape error, so no input resolves outside the volume. -/
theorem resolution_contained (cfg : Config) (raw : String)
    (hcwd : strStartsWith cfg.cwd "/" = true) :
    ∀ p f, resolveFsPathFromApiPath cfg raw = .ok p f →
      isContained (volResolved cfg) f = true ∧ strStartsWith f "/" = true := by
  intro p f h
  unfold resolveFsPathFromApiPath at h
  cases hp : prepareOperationPath raw with
  | none => rw [hp] at h; cases h
  | some prep =>
    rw [hp] at h
    dsimp only at h
    cases hc : resolveCore cfg (jsReplaceBackslashes prep.normalizedPath) with
    | none => rw [hc] at h; cases h
    | some f' =>
      rw [hc] at h
      cases h
      have hcont := resolveCore_contained hc
      have hvol : strStartsWith (volResolved cfg) "/" = true :=
        pathResolve_startsWith cfg.cwd [cfg.volumePath] hcwd
      exact ⟨hcont, isContained_startsWith hvol hcont⟩

/-- Witness for C1 at a concrete deployment and input, together with the
sibling-directory negative check from the claim. -/
theorem resolution_contained_witness :
    strStartsWith sampleConfig.cwd "/" = true ∧
    (isContained (volResolved sampleConfig) "/srv/Haptic/notes/a.md" = true ∧
      strStartsWith "/srv/Haptic/notes/a.md" "/" = true) ∧
    isContained "/data" "/data-evil/x" = false :=
  ⟨by decide,
   resolution_contained sampleConfig "/Haptic/notes/a.md" (by decide)
     ⟨"/Haptic/notes/a.md", "/Haptic/notes/a.md", "/Haptic/notes/a.md"⟩
     "/srv/Haptic/notes/a.md" (by decide),
   by decide⟩

/-! ## Lemmas: splitting, joining, and slash squeezing -/

theorem mk_data (s : String) : String.mk s.data = s := rfl

theorem ne_empty_iff_data {s : String} : s ≠ "" ↔ s.data ≠ [] := by
  constructor
  · intro h hd
    exact h (show s = "" from congrArg String.mk hd)
  · intro h hd
    exact h (congrArg String.data hd)

theorem splitOnSlash_ne_nil (l : List Char) : splitOnSlash l ≠ [] := by
  cases l with
  | nil => simp [splitOnSlash]
  | cons c rest =>
    unfold splitOnSlash
    split
    · simp
    · split <;> simp

theorem splitOnSlash_cons_slash (l : List Char) :
    splitOnSlash ('/' :: l) = [] :: splitOnSlash l := by
  simp [splitOnSlash]

theorem splitOnSlash_append_noSlash (a : List Char) (ha : '/' ∉ a)
    {l : List Char} {g : List Char} {gs : List (List Char)}
    (hl : splitOnSlash l = g :: gs) :
    splitOnSlash (a ++ l) = (a ++ g) :: gs := by
  induction a with
  | nil => simpa using hl
  | cons c a' ih =>
    have hc : c ≠ '/' := fun h => ha (h ▸ List.mem_cons_self c a')
    have ha' : '/' ∉ a' := fun h => ha (List.mem_cons_of_mem c h)
    have hstep : splitOnSlash (c :: (a' ++ l)) =
        if c = '/' then [] :: splitOnSlash (a' ++ l)
        else
          match splitOnSlash (a' ++ l) with
          | [] => [[c]]
          | g :: gs => (c :: g) :: gs := rfl
    rw [List.cons_append, hstep, if_neg hc, ih ha']
    rfl

theorem splitOnSlash_noSlash (a : List Char) (ha : '/' ∉ a) :
    splitOnSlash a = [a] := by
  have := @splitOnSlash_append_noSlash a ha [] [] [] rfl
  simpa using this

theorem joinSegsChars_cons (s : String) (rest : List String) :
    joinSegsChars (s :: rest) =
      s.data ++ (if rest = [] then [] else '/' :: joinSegsChars rest) := by
  cases rest <;> simp [joinSegsChars]

theorem splitOnSlash_join (segs : List String)
    (h : ∀ s ∈ segs, s.data ≠ [] ∧ '/' ∉ s.data) (hne : segs ≠ []) :
    splitOnSlash (joinSegsChars segs) = segs.map (·.data) := by
  induction segs with
  | nil => exact absurd rfl hne
  | cons s rest ih =>
    have hs := h s (List.mem_cons_self s rest)
    cases rest with
    | nil =>
      have := splitOnSlash_noSlash s.data hs.2
      simp [joinSegsChars_cons, this]
    | cons s' rest' =>
      have htail : splitOnSlash (joinSegsChars (s' :: rest')) =
          (s' :: rest').map (·.data) :=
        ih (fun x hx => h x (List.mem_cons_of_mem s hx)) (by simp)
      rw [joinSegsChars_cons, if_neg (by simp)]
      have hsplit : splitOnSlash ('/' :: joinSegsChars (s' :: rest')) =
          [] :: (s' :: rest').map (·.data) := by
        rw [splitOnSlash_cons_slash, htail]
      rw [splitOnSlash_append_noSlash s.data hs.2 hsplit]
      simp

theorem splitPathSegs_render {segs : List String} (b : Bool)
    (h : ∀ s ∈ segs, GoodSeg s) (hne : segs ≠ []) :
    splitPathSegs (renderPath b segs) = segs := by
  have hdat : ∀ s ∈ segs, s.data ≠ [] ∧ '/' ∉ s.data := by
    intro s hs
    obtain ⟨h1, h2, _⟩ := h s hs
    exact ⟨ne_empty_iff_data.mp h1, h2⟩
  obtain ⟨s0, rest, rfl⟩ : ∃ s0 rest, segs = s0 :: rest := by
    cases segs with
    | nil => exact absurd rfl hne
    | cons a b => exact ⟨a, b, rfl⟩
  have hfilter :
      ((s0 :: rest).map (·.data)).filter (· ≠ []) = (s0 :: rest).map (·.data) := by
    rw [List.filter_eq_self]
    intro a ha
    obtain ⟨s, hs, rfl⟩ := List.mem_map.mp ha
    simpa using (hdat s hs).1
  have hmapmk :
      (((s0 :: rest).map (·.data)).map String.mk) = s0 :: rest := by
    have hcomp : (String.mk ∘ (·.data) : String → String) = id :=
      funext fun s => rfl
    rw [List.map_map, hcomp, List.map_id]
  cases b with
  | true =>
    show splitPathSegs ⟨'/' :: joinSegsChars (s0 :: rest)⟩ = s0 :: rest
    unfold splitPathSegs
    rw [show (⟨'/' :: joinSegsChars (s0 :: rest)⟩ : String).data
          = '/' :: joinSegsChars (s0 :: rest) from rfl]
    rw [splitOnSlash_cons_slash, splitOnSlash_join _ hdat (by simp)]
    rw [List.filter_cons_of_neg (by simp), hfilter, hmapmk]
  | false =>
    show splitPathSegs ⟨joinSegsChars (s0 :: rest)⟩ = s0 :: rest
    unfold splitPathSegs
    rw [show (⟨joinSegsChars (s0 :: rest)⟩ : String).data
          = joinSegsChars (s0 :: rest) from rfl]
    rw [splitOnSlash_join _ hdat (by simp), hfilter, hmapmk]

/-! ## Lemmas: segment collapsing -/

theorem collapseGo_nil (allow : Bool) (acc : List String) :
    collapseGo allow acc [] = acc.reverse := rfl

theorem collapseGo_cons (allow : Bool) (acc : List String) (s : String)
    (rest : List String) :
    collapseGo allow acc (s :: rest) =
      if s = "." then collapseGo allow acc rest
      else if s = ".." then
        match acc with
        | [] =>
          if allow then collapseGo allow [".."] rest else collapseGo allow [] rest
        | a :: as =>
          if a = ".." then collapseGo allow (".." :: a :: as) rest
          else collapseGo allow as rest
      else collapseGo allow (s :: acc) rest := rfl

theorem collapseGo_mem {allow : Bool} {l : List String} :
    ∀ {acc x}, x ∈ collapseGo allow acc l → x ∈ acc ∨ x ∈ l ∨ x = ".." := by
  induction l with
  | nil =>
    intro acc x h
    rw [collapseGo_nil] at h
    exact Or.inl (List.mem_reverse.mp h)
  | cons s rest ih =>
    intro acc x h
    rw [collapseGo_cons] at h
    by_cases hdot : s = "."
    · rw [if_pos hdot] at h
      rcases ih h with h' | h' | h'
      · exact Or.inl h'
      · exact Or.inr (Or.inl (List.mem_cons_of_mem s h'))
      · exact Or.inr (Or.inr h')
    · rw [if_neg hdot] at h
      by_cases hdd : s = ".."
      · rw [if_pos hdd] at h
        cases acc with
        | nil =>
          dsimp only at h
          split at h
          · rcases ih h with h' | h' | h'
            · exact Or.inr (Or.inr (List.mem_singleton.mp h'))
            · exact Or.inr (Or.inl (List.mem_cons_of_mem s h'))
            · exact Or.inr (Or.inr h')
          · rcases ih h with h' | h' | h'
            · exact absurd h' (List.not_mem_nil x)
            · exact Or.inr (Or.inl (List.mem_cons_of_mem s h'))
            · exact Or.inr (Or.inr h')
        | cons a as =>
          dsimp only at h
          split at h
          · rcases ih h with h' | h' | h'
            · rcases List.mem_cons.mp h' with h'' | h''
              · exact Or.inr (Or.inr h'')
              · exact Or.inl h''
            · exact Or.inr (Or.inl (List.mem_cons_of_mem s h'))
            · exact Or.inr (Or.inr h')
          · rcases ih h with h' | h' | h'
            · exact Or.inl (List.mem_cons_of_mem a h')
            · exact Or.inr (Or.inl (List.mem_cons_of_mem s h'))
            · exact Or.inr (Or.inr h')
      · rw [if_neg hdd] at h
        rcases ih h with h' | h' | h'
        · rcases List.mem_cons.mp h' with h'' | h''
          · exact Or.inr (Or.inl (h'' ▸ List.mem_cons_self s rest))
          · exact Or.inl h''
        · exact Or.inr (Or.inl (List.mem_cons_of_mem s h'))
        · exact Or.inr (Or.inr h')

theorem collapseGo_false_noDots {l : List String} :
    ∀ {acc}, "." ∉ acc → ".." ∉ acc →
      "." ∉ collapseGo false acc l ∧ ".." ∉ collapseGo false acc l := by
  induction l with
  | nil =>
    intro acc hacc1 hacc2
    rw [collapseGo_nil]
    exact ⟨fun h => hacc1 (List.mem_reverse.mp h),
           fun h => hacc2 (List.mem_reverse.mp h)⟩
  | cons s rest ih =>
    intro acc hacc1 hacc2
    rw [collapseGo_cons]
    by_cases hdot : s = "."
    · rw [if_pos hdot]
      exact ih hacc1 hacc2
    · rw [if_neg hdot]
      by_cases hdd : s = ".."
      · rw [if_pos hdd]
        cases acc with
        | nil =>
          exact ih (by simp) (by simp)
        | cons a as =>
          have ha : a ≠ ".." := fun h => hacc2 (h ▸ List.mem_cons_self a as)
          show ("." ∉ if a = ".." then collapseGo false (".." :: a :: as) rest
                else collapseGo false as rest) ∧
            (".." ∉ if a = ".." then collapseGo false (".." :: a :: as) rest
                else collapseGo false as rest)
          rw [if_neg ha]
          exact ih (fun h => hacc1 (List.mem_cons_of_mem a h))
            (fun h => hacc2 (List.mem_cons_of_mem a h))
      · rw [if_neg hdd]
        refine ih ?_ ?_
        · intro h
          rcases List.mem_cons.mp h with h' | h'
          · exact hdot h'.symm
          · exact hacc1 h'
        · intro h
          rcases List.mem_cons.mp h with h' | h'
          · exact hdd h'.symm
          · exact hacc2 h'

theorem collapseGo_true_shape {l : List String} :
    ∀ acc, (∃ j mm, acc = mm ++ List.replicate j ".." ∧ "." ∉ mm ∧ ".." ∉ mm) →
      ∃ k m, collapseGo true acc l = List.replicate k ".." ++ m ∧
        "." ∉ m ∧ ".." ∉ m := by
  induction l with
  | nil =>
    intro acc ⟨j, mm, hacc, h1, h2⟩
    rw [collapseGo_nil]
    refine ⟨j, mm.reverse, ?_, by simpa using h1, by simpa using h2⟩
    rw [hacc, List.reverse_append, List.reverse_replicate]
  | cons s rest ih =>
    intro acc hacc
    obtain ⟨j, mm, rfl, h1, h2⟩ := hacc
    rw [collapseGo_cons]
    by_cases hdot : s = "."
    · rw [if_pos hdot]
      exact ih _ ⟨j, mm, rfl, h1, h2⟩
    · rw [if_neg hdot]
      by_cases hdd : s = ".."
      · rw [if_pos hdd]
        cases mm with
        | nil =>
          cases j with
          | zero =>
            simp only [List.replicate, List.nil_append]
            exact ih _ ⟨1, [], by simp, by simp, by simp⟩
          | succ j' =>
            simp only [List.replicate_succ, List.nil_append, if_true]
            refine ih _ ⟨j' + 2, [], ?_, by simp, by simp⟩
            simp [List.replicate_succ]
        | cons m0 mm' =>
          simp only [List.cons_append]
          have hm0 : m0 ≠ ".." := fun h => h2 (h ▸ List.mem_cons_self m0 mm')
          rw [if_neg hm0]
          exact ih _ ⟨j, mm', rfl,
            fun h => h1 (List.mem_cons_of_mem m0 h),
            fun h => h2 (List.mem_cons_of_mem m0 h)⟩
      · rw [if_neg hdd]
        refine ih _ ⟨j, s :: mm, by simp, ?_, ?_⟩
        · intro h
          rcases List.mem_cons.mp h with h' | h'
          · exact hdot h'.symm
          · exact h1 h'
        · intro h
          rcases List.mem_cons.mp h with h' | h'
          · exact hdd h'.symm
          · exact h2 h'

theorem collapseDots_shape (b : Bool) (segs : List String) :
    CollapsedSegs b (collapseDots b segs) := by
  cases b with
  | true =>
    have := @collapseGo_false_noDots segs [] (by simp) (by simp)
    exact ⟨this.1, by simpa using this.2⟩
  | false =>
    obtain ⟨k, m, heq, h1, h2⟩ :=
      @collapseGo_true_shape segs [] ⟨0, [], by simp, by simp, by simp⟩
    refine ⟨?_, by simpa using ⟨k, m, heq, h2⟩⟩
    rw [show collapseDots false segs = collapseGo true [] segs from rfl, heq]
    intro h
    rcases List.mem_append.mp h with h' | h'
    · exact absurd (List.eq_of_mem_replicate h') (by decide)
    · exact h1 h'

theorem collapseGo_noDots_id {l : List String}
    (h1 : "." ∉ l) (h2 : ".." ∉ l) {allow : Bool} :
    ∀ acc, collapseGo allow acc l = acc.reverse ++ l := by
  induction l with
  | nil => intro acc; rw [collapseGo_nil]; simp
  | cons s rest ih =>
    intro acc
    have hs1 : s ≠ "." := fun h => h1 (h ▸ List.mem_cons_self s rest)
    have hs2 : s ≠ ".." := fun h => h2 (h ▸ List.mem_cons_self s rest)
    rw [collapseGo_cons, if_neg hs1, if_neg hs2]
    rw [ih (fun h => h1 (List.mem_cons_of_mem s h))
        (fun h => h2 (List.mem_cons_of_mem s h))]
    simp

theorem collapseGo_true_replicate {rest : List String}
    (h1 : "." ∉ rest) (h2 : ".." ∉ rest) :
    ∀ k j, collapseGo true (List.replicate j "..") (List.replicate k ".." ++ rest) =
      List.replicate (k + j) ".." ++ rest := by
  intro k
  induction k with
  | zero =>
    intro j
    simp only [List.replicate, List.nil_append, Nat.zero_add]
    rw [collapseGo_noDots_id h1 h2]
    simp
  | succ k' ih =>
    intro j
    rw [List.replicate_succ, List.cons_append, collapseGo_cons]
    rw [if_neg (by decide), if_pos rfl]
    cases j with
    | zero =>
      simp only [List.replicate]
      exact ih 1
    | succ j' =>
      have hrepl : (".." :: ".." :: List.replicate j' "..") =
          List.replicate (j' + 2) ".." := by
        simp [List.replicate_succ]
      simp only [List.replicate_succ, if_true]
      rw [hrepl, ih (j' + 2),
        show k' + (j' + 2) = k' + 1 + (j' + 1) from by omega]

theorem collapseDots_id {b : Bool} {segs : List String}
    (h : CollapsedSegs b segs) : collapseDots b segs = segs := by
  obtain ⟨h1, h2⟩ := h
  cases b with
  | true =>
    rw [if_pos rfl] at h2
    rw [show collapseDots true segs = collapseGo false [] segs from rfl]
    rw [collapseGo_noDots_id h1 h2]
    simp
  | false =>
    rw [if_neg (by simp)] at h2
    obtain ⟨k, m, rfl, hm⟩ := h2
    have hm1 : "." ∉ m := fun h => h1 (List.mem_append.mpr (Or.inr h))
    rw [show collapseDots false (List.replicate k ".." ++ m)
          = collapseGo true [] (List.replicate k ".." ++ m) from rfl]
    have := collapseGo_true_replicate hm1 hm k 0
    simpa using this

/-! ## Lemmas: characters of rendered paths -/

theorem joinSegsChars_chars {segs : List String} {c : Char}
    (h : c ∈ joinSegsChars segs) : c = '/' ∨ ∃ s ∈ segs, c ∈ s.data := by
  induction segs with
  | nil => simp [joinSegsChars] at h
  | cons s rest ih =>
    rw [joinSegsChars_cons] at h
    rcases List.mem_append.mp h with h' | h'
    · exact Or.inr ⟨s, List.mem_cons_self s rest, h'⟩
    · split at h'
      · simp at h'
      · rcases List.mem_cons.mp h' with h'' | h''
        · exact Or.inl h''
        · rcases ih h'' with h3 | ⟨s', hs', hc⟩
          · exact Or.inl h3
          · exact Or.inr ⟨s', List.mem_cons_of_mem s hs', hc⟩

theorem joinSegsChars_ne_nil {segs : List String}
    (h : ∀ s ∈ segs, s.data ≠ []) (hne : segs ≠ []) :
    joinSegsChars segs ≠ [] := by
  cases segs with
  | nil => exact absurd rfl hne
  | cons s rest =>
    rw [joinSegsChars_cons]
    intro hcontra
    exact h s (List.mem_cons_self s rest)
      (List.append_eq_nil.mp hcontra).1

theorem joinSegsChars_getLast_ne {segs : List String}
    (h : ∀ s ∈ segs, s.data ≠ [] ∧ '/' ∉ s.data) (hne : segs ≠ []) :
    ∀ c, (joinSegsChars segs).getLast? = some c → c ≠ '/' := by
  induction segs with
  | nil => exact absurd rfl hne
  | cons s rest ih =>
    intro c hc
    cases rest with
    | nil =>
      have hs := h s (List.mem_cons_self s [])
      have hmem : c ∈ s.data := by
        refine List.mem_of_mem_getLast? ?_
        have : s.data.getLast? = some c := by simpa [joinSegsChars] using hc
        simp [this]
      exact fun hslash => hs.2 (hslash ▸ hmem)
    | cons s' rest' =>
      have htail : joinSegsChars (s' :: rest') ≠ [] :=
        joinSegsChars_ne_nil
          (fun x hx => (h x (List.mem_cons_of_mem s hx)).1) (by simp)
      rw [joinSegsChars_cons, if_neg (by simp)] at hc
      rw [List.getLast?_append_of_ne_nil _ (by simp)] at hc
      rw [show ('/' :: joinSegsChars (s' :: rest'))
            = ['/'] ++ joinSegsChars (s' :: rest') from rfl] at hc
      rw [List.getLast?_append_of_ne_nil _ htail] at hc
      exact ih (fun x hx => h x (List.mem_cons_of_mem s hx)) (by simp) c hc

theorem strEndsWith_slash_false {s : String}
    (h : ∀ c, s.data.getLast? = some c → c ≠ '/') :
    strEndsWith s "/" = false := by
  rw [Bool.eq_false_iff]
  intro htrue
  have hsuf : ['/'] <:+ s.data := by
    have := List.isSuffixOf_iff_suffix.mp htrue
    simpa using this
  obtain ⟨t, ht⟩ := hsuf
  exact h '/' (by rw [← ht, List.getLast?_concat]) rfl

theorem renderPath_rel_not_abs {segs : List String}
    (h : ∀ s ∈ segs, s.data ≠ [] ∧ '/' ∉ s.data) (hne : segs ≠ []) :
    strStartsWith (renderPath false segs) "/" = false := by
  cases segs with
  | nil => exact absurd rfl hne
  | cons s rest =>
    have hs := h s (List.mem_cons_self s rest)
    show ((("/" : String).data).isPrefixOf (joinSegsChars (s :: rest))) = false
    rw [joinSegsChars_cons]
    cases hd : s.data with
    | nil => exact absurd hd hs.1
    | cons c cs =>
      have hcslash : c ≠ '/' := fun hcc => hs.2 (hd ▸ hcc ▸ List.mem_cons_self c cs)
      have hbeq : (('/' : Char) == c) = false :=
        beq_eq_false_iff_ne.mpr (Ne.symm hcslash)
      simp only [show ("/" : String).data = ['/'] from rfl]
      simp [List.isPrefixOf, hbeq]

theorem renderPath_no_backslash {b : Bool} {segs : List String}
    (h : ∀ s ∈ segs, '\\' ∉ s.data) :
    '\\' ∉ (renderPath b segs).data := by
  cases segs with
  | nil => cases b <;> simp [renderPath]
  | cons s rest =>
    cases b with
    | true =>
      show '\\' ∉ '/' :: joinSegsChars (s :: rest)
      intro hmem
      rcases List.mem_cons.mp hmem with h' | h'
      · cases h'
      · rcases joinSegsChars_chars h' with h'' | ⟨s', hs', hc⟩
        · cases h''
        · exact h s' hs' hc
    | false =>
      show '\\' ∉ joinSegsChars (s :: rest)
      intro hmem
      rcases joinSegsChars_chars hmem with h'' | ⟨s', hs', hc⟩
      · cases h''
      · exact h s' hs' hc

theorem jsReplaceBackslashes_noop {s : String} (h : '\\' ∉ s.data) :
    jsReplaceBackslashes s = s := by
  show String.mk (s.data.map _) = s
  have hmap : s.data.map (fun c => if c = '\\' then '/' else c) = s.data := by
    have h2 : ∀ c ∈ s.data, (if c = '\\' then '/' else c) = id c := by
      intro c hc
      have hne : c ≠ '\\' := fun hcc => h (hcc ▸ hc)
      simp [hne]
    rw [List.map_congr_left h2, List.map_id]
  rw [hmap, mk_data]

theorem squeeze_noSlash {a : List Char} (h : '/' ∉ a) :
    ∀ b, squeezeSlashAux b a = a := by
  induction a with
  | nil => intro b; rfl
  | cons c a' ih =>
    intro b
    have hc : c ≠ '/' := fun hcc => h (hcc ▸ List.mem_cons_self c a')
    rw [squeezeSlashAux, if_neg hc]
    rw [ih (fun hm => h (List.mem_cons_of_mem c hm)) false]

theorem squeeze_append_noSlash {a : List Char} (h : '/' ∉ a) (hne : a ≠ []) :
    ∀ b l, squeezeSlashAux b (a ++ l) = a ++ squeezeSlashAux false l := by
  induction a with
  | nil => exact absurd rfl hne
  | cons c a' ih =>
    intro b l
    have hc : c ≠ '/' := fun hcc => h (hcc ▸ List.mem_cons_self c a')
    have ha' : '/' ∉ a' := fun hm => h (List.mem_cons_of_mem c hm)
    rw [List.cons_append, squeezeSlashAux, if_neg hc]
    cases ha'' : a' with
    | nil => simp
    | cons c2 a2 =>
      rw [← ha'']
      rw [ih ha' (by rw [ha'']; simp) false l]
      simp

theorem squeeze_join {segs : List String}
    (h : ∀ s ∈ segs, s.data ≠ [] ∧ '/' ∉ s.data) :
    ∀ b, squeezeSlashAux b (joinSegsChars segs) = joinSegsChars segs := by
  induction segs with
  | nil => intro b; rfl
  | cons s rest ih =>
    intro b
    have hs := h s (List.mem_cons_self s rest)
    cases rest with
    | nil =>
      show squeezeSlashAux b s.data = s.data
      exact squeeze_noSlash hs.2 b
    | cons s' rest' =>
      rw [joinSegsChars_cons, if_neg (by simp)]
      rw [squeeze_append_noSlash hs.2 hs.1 b]
      rw [show squeezeSlashAux false ('/' :: joinSegsChars (s' :: rest'))
            = '/' :: squeezeSlashAux true (joinSegsChars (s' :: rest')) from by
          rw [squeezeSlashAux]; simp]
      rw [ih (fun x hx => h x (List.mem_cons_of_mem s hx)) true]

theorem jsCollapseSlashes_render_noop {b : Bool} {segs : List String}
    (h : ∀ s ∈ segs, s.data ≠ [] ∧ '/' ∉ s.data) :
    jsCollapseSlashes (renderPath b segs) = renderPath b segs := by
  cases segs with
  | nil => cases b <;> decide
  | cons s rest =>
    cases b with
    | true =>
      show String.mk (squeezeSlashAux false ('/' :: joinSegsChars (s :: rest)))
        = renderPath true (s :: rest)
      rw [show squeezeSlashAux false ('/' :: joinSegsChars (s :: rest))
            = '/' :: squeezeSlashAux true (joinSegsChars (s :: rest)) from by
          rw [squeezeSlashAux]; simp]
      rw [squeeze_join h true]
      rfl
    | false =>
      show String.mk (squeezeSlashAux false (joinSegsChars (s :: rest)))
        = renderPath false (s :: rest)
      rw [squeeze_join h false]
      rfl

/-! ## Lemmas: normal form of prepared paths -/

theorem splitOnSlash_group_chars {l : List Char} :
    ∀ {g c}, g ∈ splitOnSlash l → c ∈ g → c ∈ l := by
  induction l with
  | nil =>
    intro g c hg hc
    simp [splitOnSlash] at hg
    subst hg
    cases hc
  | cons a rest ih =>
    intro g c hg hc
    rw [splitOnSlash] at hg
    split at hg
    · rcases List.mem_cons.mp hg with h' | h'
      · subst h'; cases hc
      · exact List.mem_cons_of_mem a (ih h' hc)
    · rename_i ha
      cases hrest : splitOnSlash rest with
      | nil => exact absurd hrest (splitOnSlash_ne_nil rest)
      | cons g0 gs =>
        rw [hrest] at hg
        rcases List.mem_cons.mp hg with h' | h'
        · subst h'
          rcases List.mem_cons.mp hc with h'' | h''
          · exact h'' ▸ List.mem_cons_self a rest
          · exact List.mem_cons_of_mem a
              (ih (hrest ▸ List.mem_cons_self g0 gs) h'')
        · exact List.mem_cons_of_mem a
            (ih (hrest ▸ List.mem_cons_of_mem g0 h') hc)

theorem splitOnSlash_group_noSlash {l : List Char} :
    ∀ {g}, g ∈ splitOnSlash l → '/' ∉ g := by
  induction l with
  | nil =>
    intro g hg
    simp [splitOnSlash] at hg
    subst hg
    simp
  | cons a rest ih =>
    intro g hg
    rw [splitOnSlash] at hg
    split at hg
    · rcases List.mem_cons.mp hg with h' | h'
      · subst h'; simp
      · exact ih h'
    · rename_i ha
      cases hrest : splitOnSlash rest with
      | nil => exact absurd hrest (splitOnSlash_ne_nil rest)
      | cons g0 gs =>
        rw [hrest] at hg
        rcases List.mem_cons.mp hg with h' | h'
        · subst h'
          intro hmem
          rcases List.mem_cons.mp hmem with h'' | h''
          · exact ha h''.symm
          · exact ih (hrest ▸ List.mem_cons_self g0 gs) h''
        · exact ih (hrest ▸ List.mem_cons_of_mem g0 h')

theorem splitPathSegs_good {s : String} (h : '\\' ∉ s.data) :
    ∀ x ∈ splitPathSegs s, GoodSeg x := by
  intro x hx
  obtain ⟨g, hg, rfl⟩ := List.mem_map.mp hx
  have hgf := List.mem_filter.mp hg
  have hgmem : g ∈ splitOnSlash s.data := hgf.1
  have hgne : g ≠ [] := by simpa using hgf.2
  refine ⟨?_, ?_, ?_⟩
  · exact ne_empty_iff_data.mpr (by simpa using hgne)
  · exact splitOnSlash_group_noSlash hgmem
  · intro hc
    exact h (splitOnSlash_group_chars hgmem hc)

theorem squeeze_subset {l : List Char} :
    ∀ {b c}, c ∈ squeezeSlashAux b l → c ∈ l := by
  induction l with
  | nil => intro b c h; cases h
  | cons a rest ih =>
    intro b c h
    rw [squeezeSlashAux] at h
    split at h
    · rename_i ha
      split at h
      · exact List.mem_cons_of_mem a (ih h)
      · rcases List.mem_cons.mp h with h' | h'
        · exact h' ▸ ha ▸ List.mem_cons_self a rest
        · exact List.mem_cons_of_mem a (ih h')
    · rcases List.mem_cons.mp h with h' | h'
      · exact h' ▸ List.mem_cons_self a rest
      · exact List.mem_cons_of_mem a (ih h')

theorem jsReplaceBackslashes_no_backslash (s : String) :
    '\\' ∉ (jsReplaceBackslashes s).data := by
  intro h
  obtain ⟨c, -, hc⟩ := List.mem_map.mp h
  by_cases hcc : c = '\\' <;> simp [hcc] at hc

theorem goodSeg_dotdot : GoodSeg ".." := by
  refine ⟨by decide, by decide, by decide⟩

theorem collapseDots_good {b : Bool} {segs : List String}
    (h : ∀ s ∈ segs, GoodSeg s) :
    ∀ x ∈ collapseDots b segs, GoodSeg x := by
  intro x hx
  rcases collapseGo_mem hx with h' | h' | h'
  · cases h'
  · exact h x h'
  · exact h' ▸ goodSeg_dotdot

theorem pathNormalize_render {b : Bool} {segs : List String}
    (hg : ∀ s ∈ segs, GoodSeg s) (hc : CollapsedSegs b segs) (hne : segs ≠ []) :
    pathNormalize (renderPath b segs) = renderPath b segs := by
  have hdat : ∀ s ∈ segs, s.data ≠ [] ∧ '/' ∉ s.data := by
    intro s hs
    obtain ⟨h1, h2, -⟩ := hg s hs
    exact ⟨ne_empty_iff_data.mp h1, h2⟩
  unfold pathNormalize
  cases b with
  | true =>
    rw [renderPath_abs_startsWith segs]
    dsimp only
    rw [splitPathSegs_render true hg hne, collapseDots_id hc]
  | false =>
    rw [renderPath_rel_not_abs hdat hne]
    dsimp only
    rw [splitPathSegs_render false hg hne, collapseDots_id hc]

theorem pathJoin_abs {segs : List String}
    (hg : ∀ s ∈ segs, GoodSeg s) (hne : segs ≠ []) :
    pathJoin ("/" :: segs) = renderPath true (collapseDots true segs) := by
  have hdat : ∀ s ∈ segs, s.data ≠ [] ∧ '/' ∉ s.data := by
    intro s hs
    obtain ⟨h1, h2, -⟩ := hg s hs
    exact ⟨ne_empty_iff_data.mp h1, h2⟩
  obtain ⟨s0, rest, rfl⟩ : ∃ s0 rest, segs = s0 :: rest := by
    cases segs with
    | nil => exact absurd rfl hne
    | cons a b => exact ⟨a, b, rfl⟩
  have hfilter : ("/" :: s0 :: rest).filter (· ≠ "") = "/" :: s0 :: rest := by
    rw [List.filter_eq_self]
    intro a ha
    rcases List.mem_cons.mp ha with h' | h'
    · subst h'; decide
    · simpa using (hg a h').1
  unfold pathJoin
  rw [hfilter]
  dsimp only
  have hjoin : joinSegsChars ("/" :: s0 :: rest)
      = '/' :: '/' :: joinSegsChars (s0 :: rest) := by
    rw [joinSegsChars_cons, if_neg (by simp)]
    rfl
  rw [hjoin]
  unfold pathNormalize
  have habs : strStartsWith ⟨'/' :: '/' :: joinSegsChars (s0 :: rest)⟩ "/" = true := by
    rw [strStartsWith_iff]
    exact ⟨'/' :: joinSegsChars (s0 :: rest), rfl⟩
  rw [habs]
  dsimp only
  have hsplit : splitPathSegs ⟨'/' :: '/' :: joinSegsChars (s0 :: rest)⟩
      = s0 :: rest := by
    unfold splitPathSegs
    rw [show (⟨'/' :: '/' :: joinSegsChars (s0 :: rest)⟩ : String).data
          = '/' :: '/' :: joinSegsChars (s0 :: rest) from rfl]
    rw [splitOnSlash_cons_slash, splitOnSlash_cons_slash,
      splitOnSlash_join _ hdat (by simp)]
    rw [List.filter_cons_of_neg (by simp), List.filter_cons_of_neg (by simp)]
    have hfilter2 : (((s0 :: rest).map (·.data)).filter (· ≠ []))
        = (s0 :: rest).map (·.data) := by
      rw [List.filter_eq_self]
      intro a ha
      obtain ⟨s, hs, rfl⟩ := List.mem_map.mp ha
      simpa using (hdat s hs).1
    rw [hfilter2]
    have hcomp : (String.mk ∘ (·.data) : String → String) = id :=
      funext fun s => rfl
    rw [List.map_map, hcomp, List.map_id]
  rw [hsplit]

theorem pathJoin_rel {segs : List String}
    (hg : ∀ s ∈ segs, GoodSeg s) (hne : segs ≠ []) :
    pathJoin segs = renderPath false (collapseDots false segs) := by
  have hdat : ∀ s ∈ segs, s.data ≠ [] ∧ '/' ∉ s.data := by
    intro s hs
    obtain ⟨h1, h2, -⟩ := hg s hs
    exact ⟨ne_empty_iff_data.mp h1, h2⟩
  obtain ⟨s0, rest, rfl⟩ : ∃ s0 rest, segs = s0 :: rest := by
    cases segs with
    | nil => exact absurd rfl hne
    | cons a b => exact ⟨a, b, rfl⟩
  have hfilter : (s0 :: rest).filter (· ≠ "") = s0 :: rest := by
    rw [List.filter_eq_self]
    intro a ha
    simpa using (hg a ha).1
  unfold pathJoin
  rw [hfilter]
  dsimp only
  unfold pathNormalize
  have hrel : strStartsWith ⟨joinSegsChars (s0 :: rest)⟩ "/" = false := by
    have := @renderPath_rel_not_abs (s0 :: rest) hdat (by simp)
    simpa [renderPath] using this
  rw [hrel]
  dsimp only
  have hsplit : splitPathSegs ⟨joinSegsChars (s0 :: rest)⟩ = s0 :: rest := by
    have := @splitPathSegs_render (s0 :: rest) false hg (by simp)
    simpa [renderPath] using this
  rw [hsplit]

theorem squeezeReplace_no_backslash (t : String) :
    '\\' ∉ (jsCollapseSlashes (jsReplaceBackslashes t)).data := by
  intro h
  exact jsReplaceBackslashes_no_backslash t (squeeze_subset h)

theorem normJoin_form_abs {segs : List String}
    (hg : ∀ s ∈ segs, GoodSeg s) (hne : segs ≠ []) :
    pathNormalize (pathJoin ("/" :: segs)) = "/" ∨
      ∃ segs', segs' ≠ [] ∧ (∀ s ∈ segs', GoodSeg s) ∧
        CollapsedSegs true segs' ∧
        pathNormalize (pathJoin ("/" :: segs)) = renderPath true segs' := by
  rw [pathJoin_abs hg hne]
  cases hCS : collapseDots true segs with
  | nil =>
    left
    decide
  | cons c0 cr =>
    right
    refine ⟨c0 :: cr, by simp, ?_, ?_, ?_⟩
    · rw [← hCS]; exact collapseDots_good hg
    · rw [← hCS]; exact collapseDots_shape true segs
    · exact pathNormalize_render (hCS ▸ collapseDots_good hg)
        (hCS ▸ collapseDots_shape true segs) (by simp)

theorem normJoin_form_rel {segs : List String}
    (hg : ∀ s ∈ segs, GoodSeg s) (hne : segs ≠ []) :
    pathNormalize (pathJoin segs) = "." ∨
      ∃ segs', segs' ≠ [] ∧ (∀ s ∈ segs', GoodSeg s) ∧
        CollapsedSegs false segs' ∧
        pathNormalize (pathJoin segs) = renderPath false segs' := by
  rw [pathJoin_rel hg hne]
  cases hCS : collapseDots false segs with
  | nil =>
    left
    decide
  | cons c0 cr =>
    right
    refine ⟨c0 :: cr, by simp, ?_, ?_, ?_⟩
    · rw [← hCS]; exact collapseDots_good hg
    · rw [← hCS]; exact collapseDots_shape false segs
    · exact pathNormalize_render (hCS ▸ collapseDots_good hg)
        (hCS ▸ collapseDots_shape false segs) (by simp)

/-- Normal form of `prepareFromCleaned` results for a backslash-free
`cleaned` string: the two path fields agree and the normalized path is
`"/"`, `"."`, or a rendering of a non-empty, well-formed, collapsed segment
list. -/
theorem prepareFromCleaned_form {cleaned trimmed : String} {p : Prepared}
    (hnb : '\\' ∉ cleaned.data)
    (h : prepareFromCleaned cleaned trimmed = some p) :
    p.targetPath = p.normalizedPath ∧
    (p.normalizedPath = "/" ∨ p.normalizedPath = "." ∨
      ∃ b segs, segs ≠ [] ∧ (∀ s ∈ segs, GoodSeg s) ∧ CollapsedSegs b segs ∧
        p.normalizedPath = renderPath b segs) := by
  unfold prepareFromCleaned at h
  split at h
  · cases h
  · split at h
    · cases h
      refine ⟨rfl, Or.inl ?_⟩
      show pathNormalize "/" = "/"
      decide
    · dsimp only at h
      split at h
      · cases h
      · rename_i s0 rest hsegs
        have hgood : ∀ s ∈ s0 :: rest, GoodSeg s := by
          rw [← hsegs]
          exact splitPathSegs_good hnb
        split at h
        · cases h
          refine ⟨rfl, ?_⟩
          rcases normJoin_form_abs hgood (by simp) with h1 | ⟨segs', h2, h3, h4, h5⟩
          · exact Or.inl h1
          · exact Or.inr (Or.inr ⟨true, segs', h2, h3, h4, h5⟩)
        · cases h
          refine ⟨rfl, ?_⟩
          rcases normJoin_form_rel hgood (by simp) with h1 | ⟨segs', h2, h3, h4, h5⟩
          · exact Or.inr (Or.inl h1)
          · exact Or.inr (Or.inr ⟨false, segs', h2, h3, h4, h5⟩)

/-- Normal form of `prepareOperationPath` results. -/
theorem prepare_form {raw : String} {p : Prepared}
    (h : prepareOperationPath raw = some p) :
    p.targetPath = p.normalizedPath ∧
    (p.normalizedPath = "/" ∨ p.normalizedPath = "." ∨
      ∃ b segs, segs ≠ [] ∧ (∀ s ∈ segs, GoodSeg s) ∧ CollapsedSegs b segs ∧
        p.normalizedPath = renderPath b segs) := by
  unfold prepareOperationPath at h
  dsimp only at h
  split at h
  · cases h
  · refine prepareFromCleaned_form ?_ h
    split
    · intro hm
      exact squeezeReplace_no_backslash _ (List.mem_of_mem_dropLast hm)
    · exact squeezeReplace_no_backslash _

/-! ## Lemmas: preparation is idempotent on fixed normalized paths -/

theorem renderPath_ne_empty {b : Bool} {segs : List String}
    (h : ∀ s ∈ segs, s.data ≠ []) : renderPath b segs ≠ "" := by
  cases segs with
  | nil => cases b <;> decide
  | cons s rest =>
    cases b with
    | true =>
      intro hcontra
      have hdata : '/' :: joinSegsChars (s :: rest) = [] :=
        congrArg String.data hcontra
      exact List.cons_ne_nil _ _ hdata
    | false =>
      intro hcontra
      exact joinSegsChars_ne_nil h (by simp) (congrArg String.data hcontra)

theorem renderPath_ne_slash {b : Bool} {segs : List String}
    (hdat : ∀ s ∈ segs, s.data ≠ [] ∧ '/' ∉ s.data) (hne : segs ≠ []) :
    renderPath b segs ≠ "/" := by
  cases segs with
  | nil => exact absurd rfl hne
  | cons s rest =>
    have hs := hdat s (List.mem_cons_self s rest)
    cases b with
    | true =>
      intro hcontra
      have hdata : '/' :: joinSegsChars (s :: rest) = ['/'] :=
        congrArg String.data hcontra
      have : joinSegsChars (s :: rest) = [] := by
        injection hdata
      exact joinSegsChars_ne_nil (fun x hx => (hdat x hx).1) (by simp) this
    | false =>
      intro hcontra
      have hdata : joinSegsChars (s :: rest) = ['/'] :=
        congrArg String.data hcontra
      rw [joinSegsChars_cons] at hdata
      cases hd : s.data with
      | nil => exact hs.1 hd
      | cons c cs =>
        rw [hd] at hdata
        have : c = '/' := by
          have := congrArg (List.head?) hdata
          simpa using this
        exact hs.2 (hd ▸ this ▸ List.mem_cons_self c cs)

theorem renderPath_endsWith_slash_false {b : Bool} {segs : List String}
    (hdat : ∀ s ∈ segs, s.data ≠ [] ∧ '/' ∉ s.data) (hne : segs ≠ []) :
    strEndsWith (renderPath b segs) "/" = false := by
  apply strEndsWith_slash_false
  intro c hc
  cases segs with
  | nil => exact absurd rfl hne
  | cons s rest =>
    have hjoin_ne : joinSegsChars (s :: rest) ≠ [] :=
      joinSegsChars_ne_nil (fun x hx => (hdat x hx).1) (by simp)
    cases b with
    | true =>
      have hc' : (joinSegsChars (s :: rest)).getLast? = some c := by
        have : (renderPath true (s :: rest)).data
            = ['/'] ++ joinSegsChars (s :: rest) := rfl
        rw [this, List.getLast?_append_of_ne_nil _ hjoin_ne] at hc
        exact hc
      exact joinSegsChars_getLast_ne hdat (by simp) c hc'
    | false =>
      exact joinSegsChars_getLast_ne hdat (by simp) c hc

theorem prepareFromCleaned_render_fix {b : Bool} {segs : List String}
    (hg : ∀ s ∈ segs, GoodSeg s) (hc : CollapsedSegs b segs) (hne : segs ≠ [])
    (hdrive : rootedDrive (renderPath b segs) = false) :
    prepareFromCleaned (renderPath b segs) (renderPath b segs)
      = some ⟨renderPath b segs, renderPath b segs, renderPath b segs⟩ := by
  have hdat : ∀ s ∈ segs, s.data ≠ [] ∧ '/' ∉ s.data := by
    intro s hs
    obtain ⟨h1, h2, -⟩ := hg s hs
    exact ⟨ne_empty_iff_data.mp h1, h2⟩
  obtain ⟨s0, rest, rfl⟩ : ∃ s0 rest, segs = s0 :: rest := by
    cases segs with
    | nil => exact absurd rfl hne
    | cons a b => exact ⟨a, b, rfl⟩
  unfold prepareFromCleaned
  rw [if_neg (renderPath_ne_empty (fun x hx => (hdat x hx).1))]
  rw [if_neg (renderPath_ne_slash hdat hne)]
  rw [splitPathSegs_render b hg hne]
  dsimp only
  cases b with
  | true =>
    have hdr : isWindowsDriveSeg s0 = false := by
      unfold rootedDrive at hdrive
      rw [renderPath_abs_startsWith, splitPathSegs_render true hg hne] at hdrive
      simpa using hdrive
    rw [renderPath_abs_startsWith, hdr]
    rw [show (true && !false) = true from rfl, if_pos rfl]
    rw [pathJoin_abs hg hne, collapseDots_id hc]
    rw [pathNormalize_render hg hc hne]
  | false =>
    rw [renderPath_rel_not_abs hdat hne]
    rw [show (false && !isWindowsDriveSeg s0) = false from rfl]
    rw [if_neg (by simp)]
    rw [pathJoin_rel hg hne, collapseDots_id hc]
    rw [pathNormalize_render hg hc hne]

/-- Preparation is idempotent on any normalized path it produced, provided
that path is trim-fixed and is not a rooted drive-lettered path. -/
theorem prepare_fixpoint {raw : String} {p : Prepared}
    (h : prepareOperationPath raw = some p)
    (htrim : jsTrim p.normalizedPath = p.normalizedPath)
    (hdrive : rootedDrive p.normalizedPath = false) :
    prepareOperationPath p.normalizedPath
      = some ⟨p.normalizedPath, p.normalizedPath, p.normalizedPath⟩ := by
  obtain ⟨-, hform⟩ := prepare_form h
  rcases hform with h1 | h1 | ⟨b, segs, hne, hg, hc, h1⟩
  · rw [h1]; decide
  · rw [h1]; decide
  · rw [h1] at htrim hdrive ⊢
    have hdat : ∀ s ∈ segs, s.data ≠ [] ∧ '/' ∉ s.data := by
      intro s hs
      obtain ⟨ha, hb, -⟩ := hg s hs
      exact ⟨ne_empty_iff_data.mp ha, hb⟩
    have hnb : '\\' ∉ (renderPath b segs).data :=
      renderPath_no_backslash (fun s hs => (hg s hs).2.2)
    have hEnds := @renderPath_endsWith_slash_false b segs hdat hne
    unfold prepareOperationPath
    dsimp only
    rw [htrim]
    rw [if_neg (renderPath_ne_empty (fun x hx => (hdat x hx).1))]
    rw [jsReplaceBackslashes_noop hnb, jsCollapseSlashes_render_noop hdat]
    rw [if_neg (fun hand => absurd hand.2 (by simp [hEnds]))]
    exact prepareFromCleaned_render_fix hg hc hne hdrive

/-! ## Claims C4, C5, C6 -/

/-- **C4 (counterexample).** The claim says resolution never throws past the
resolver boundary and containment violations surface as `InvalidPath`.  On
the code, a `..`-escaping input makes `resolveFsPathFromApiPath` throw
(`escapeError`), which the POST route's generic catch surfaces as a 500
internal failure, not a 400 rejection. -/
theorem resolver_throws_on_escape :
    resolveFsPathFromApiPath sampleConfig "../../etc/passwd" = .escapeError ∧
    (postMarkdown sampleConfig sampleFs "../../etc/passwd" "content").resp
      = .escape ∧
    statusOf .escape = 500 ∧ statusOf .invalidPath = 400 :=
  ⟨by decide, by decide, rfl, rfl⟩

/-- **C4 (amended).** Malformed input (empty or whitespace-only after trim)
is a non-exceptional `null` rejection, and resolution itself touches no
filesystem state; but a containment-violating input is a thrown error that
the write route surfaces as an internal failure (HTTP 500) with no
filesystem change and no event, rather than as `InvalidPath` (HTTP 400). -/
theorem resolver_failure_modes (cfg : Config) (fsys : FsTree) (raw md : String) :
    (prepareOperationPath raw = none →
      resolveFsPathFromApiPath cfg raw = .invalid) ∧
    (resolveFsPathFromApiPath cfg raw = .escapeError →
      postMarkdown cfg fsys raw md = ⟨.escape, fsys, []⟩) ∧
    statusOf .escape = 500 ∧ statusOf .invalidPath = 400 := by
  refine ⟨?_, ?_, rfl, rfl⟩
  · intro hp
    unfold resolveFsPathFromApiPath
    rw [hp]
  · intro hesc
    have hraw : raw ≠ "" := by
      intro hr
      rw [hr] at hesc
      have : resolveFsPathFromApiPath cfg "" = .invalid := by
        unfold resolveFsPathFromApiPath
        rw [show prepareOperationPath "" = none from by decide]
      rw [this] at hesc
      cases hesc
    unfold postMarkdown
    rw [if_neg hraw, hesc]

/-- Witness for the amended C4. -/
theorem resolver_failure_modes_witness :
    (prepareOperationPath "   " = none →
      resolveFsPathFromApiPath sampleConfig "   " = .invalid) ∧
    (prepareOperationPath "   " = none) ∧
    (resolveFsPathFromApiPath sampleConfig ".." = .escapeError →
      postMarkdown sampleConfig sampleFs ".." "m" = ⟨.escape, sampleFs, []⟩) ∧
    (resolveFsPathFromApiPath sampleConfig ".." = .escapeError) :=
  ⟨(resolver_failure_modes sampleConfig sampleFs "   " "m").1, by decide,
   (resolver_failure_modes sampleConfig sampleFs ".." "m").2.1, by decide⟩

/-- **C5 (counterexample).** The claim says `.`/`..` segments are kept
verbatim; in fact `path.join`/`path.normalize` collapse them: preparing
`/Haptic/a/../b` yields `/Haptic/b`, not a path retaining the `a` and `..`
segments. -/
theorem dots_are_navigation :
    prepareOperationPath "/Haptic/a/../b" =
      some ⟨"/Haptic/b", "/Haptic/b", "/Haptic/a/../b"⟩ ∧
    splitPathSegs "/Haptic/b" ≠ ["Haptic", "a", "..", "b"] :=
  ⟨by decide, by decide⟩

/-- **C5 (amended).** During normalization `.` and `..` ARE interpreted as
navigation: `.` segments are dropped and `..` collapses against the
preceding segment (clamped at the root for rooted paths, kept only as a
leading run for relative ones).  Consequently a prepared path never
contains a `.` segment (unless it is exactly `.`), contains no `..` segment
when rooted, and contains `..` only as leading segments otherwise. -/
theorem normalization_navigates_dots {raw : String} {p : Prepared}
    (h : prepareOperationPath raw = some p) :
    (p.normalizedPath = "." ∨ "." ∉ splitPathSegs p.normalizedPath) ∧
    (strStartsWith p.normalizedPath "/" = true →
      ".." ∉ splitPathSegs p.normalizedPath) ∧
    ".." ∉ (splitPathSegs p.normalizedPath).dropWhile (· == "..") := by
  obtain ⟨-, hform⟩ := prepare_form h
  rcases hform with h1 | h1 | ⟨b, segs, hne, hg, hc, h1⟩
  · rw [h1]
    exact ⟨Or.inr (by decide), by decide, by decide⟩
  · rw [h1]
    exact ⟨Or.inl rfl, by decide, by decide⟩
  · rw [h1]
    have hdat : ∀ s ∈ segs, s.data ≠ [] ∧ '/' ∉ s.data := by
      intro s hs
      obtain ⟨ha, hb, -⟩ := hg s hs
      exact ⟨ne_empty_iff_data.mp ha, hb⟩
    rw [splitPathSegs_render b hg hne]
    obtain ⟨hcdot, hcdd⟩ := hc
    refine ⟨Or.inr hcdot, ?_, ?_⟩
    · intro habs
      cases b with
      | true => simpa using hcdd
      | false =>
        rw [renderPath_rel_not_abs hdat hne] at habs
        cases habs
    · cases b with
      | true =>
        intro hmem
        have : ".." ∈ segs :=
          (List.dropWhile_sublist (· == "..")).subset hmem
        exact (by simpa using hcdd : ".." ∉ segs) this
      | false =>
        obtain ⟨k, m, rfl, hm⟩ := by simpa using hcdd
        rw [List.dropWhile_append]
        have hrep : (List.replicate k "..").dropWhile (· == "..") = [] := by
          rw [List.dropWhile_eq_nil_iff]
          intro x hx
          simp [List.eq_of_mem_replicate hx]
        rw [hrep]
        simp only [List.isEmpty_nil, if_true]
        intro hmem
        exact hm ((List.dropWhile_sublist (· == "..")).subset hmem)

/-- Witness for the amended C5 at the collapsed input `/Haptic/a/../b`. -/
theorem normalization_navigates_dots_witness :
    ("/Haptic/b" = "." ∨ "." ∉ splitPathSegs "/Haptic/b") ∧
    (strStartsWith "/Haptic/b" "/" = true →
      ".." ∉ splitPathSegs "/Haptic/b") ∧
    ".." ∉ (splitPathSegs "/Haptic/b").dropWhile (· == "..") :=
  @normalization_navigates_dots "/Haptic/a/../b"
    ⟨"/Haptic/b", "/Haptic/b", "/Haptic/a/../b"⟩ (by decide)

/-- **C6 (counterexample).** Resolution is not idempotent as claimed: the
input `/Haptic/x /` resolves successfully to normalized path `/Haptic/x `
(trailing space kept by the trailing-slash strip), but re-resolving that
normalized path trims the trailing space and yields a different
ResolvedPath pair. -/
theorem resolve_not_idempotent :
    resolveFsPathFromApiPath sampleConfig "/Haptic/x /" =
      .ok ⟨"/Haptic/x ", "/Haptic/x ", "/Haptic/x /"⟩ "/srv/Haptic/x " ∧
    resolveFsPathFromApiPath sampleConfig "/Haptic/x " =
      .ok ⟨"/Haptic/x", "/Haptic/x", "/Haptic/x"⟩ "/srv/Haptic/x" ∧
    ("/Haptic/x " : String) ≠ "/Haptic/x" :=
  ⟨by decide, by decide, by decide⟩

/-- **C6 (amended).** Resolution is idempotent for every successfully
resolving input whose normalized VirtualPath is fixed under trimming and is
not a rooted drive-lettered path: re-resolving the returned normalized path
succeeds and yields the same normalized path and the same absolute
filesystem path. -/
theorem resolve_idempotent_on_fixed (cfg : Config) (raw : String)
    (p : Prepared) (f : String)
    (h : resolveFsPathFromApiPath cfg raw = .ok p f)
    (htrim : jsTrim p.normalizedPath = p.normalizedPath)
    (hdrive : rootedDrive p.normalizedPath = false) :
    resolveFsPathFromApiPath cfg p.normalizedPath =
      .ok ⟨p.normalizedPath, p.normalizedPath, p.normalizedPath⟩ f := by
  unfold resolveFsPathFromApiPath at h ⊢
  cases hp : prepareOperationPath raw with
  | none => rw [hp] at h; cases h
  | some prep =>
    rw [hp] at h
    dsimp only at h
    cases hc : resolveCore cfg (jsReplaceBackslashes prep.normalizedPath) with
    | none => rw [hc] at h; cases h
    | some f' =>
      rw [hc] at h
      cases h
      rw [prepare_fixpoint hp htrim hdrive]
      dsimp only
      rw [hc]

/-- Witness for the amended C6: `/Haptic//notes/a.md` resolves to the
normalized path `/Haptic/notes/a.md`, and re-resolving that path gives the
same pair. -/
theorem resolve_idempotent_on_fixed_witness :
    resolveFsPathFromApiPath sampleConfig "/Haptic//notes/a.md" =
      .ok ⟨"/Haptic/notes/a.md", "/Haptic/notes/a.md", "/Haptic//notes/a.md"⟩
        "/srv/Haptic/notes/a.md" ∧
    jsTrim "/Haptic/notes/a.md" = "/Haptic/notes/a.md" ∧
    rootedDrive "/Haptic/notes/a.md" = false ∧
    resolveFsPathFromApiPath sampleConfig "/Haptic/notes/a.md" =
      .ok ⟨"/Haptic/notes/a.md", "/Haptic/notes/a.md", "/Haptic/notes/a.md"⟩
        "/srv/Haptic/notes/a.md" :=
  ⟨by decide, by decide, by decide,
   resolve_idempotent_on_fixed sampleConfig "/Haptic//notes/a.md"
     ⟨"/Haptic/notes/a.md", "/Haptic/notes/a.md", "/Haptic//notes/a.md"⟩
     "/srv/Haptic/notes/a.md" (by decide) (by decide) (by decide)⟩

/-! ## Claim C3: broadcast delivery -/

theorem mem_zip_map {α β : Type _} (f : α → β) :
    ∀ (l : List α) (p : α × β), p ∈ l.zip (l.map f) → p.2 = f p.1 := by
  intro l
  induction l with
  | nil => intro p h; cases h
  | cons a l ih =>
    intro p h
    rw [List.map_cons, List.zip_cons_cons] at h
    rcases List.mem_cons.mp h with h' | h'
    · rw [h']
    · exact ih p h'

/-- **C3 (counterexample).** The claim says an event is delivered to an
observer exactly when its subscription matches the event's collection (and
its transport is open).  `broadcastChange` ignores the subscribed
collection: an open client subscribed to `"Other"` still receives an event
for collection `"Haptic"`. -/
theorem broadcast_ignores_subscription :
    ¬ (∀ (clients : List Client) (ev : ChangeEvent),
        ∀ p ∈ clients.zip (broadcastChange clients ev),
          (p.2.inbox = p.1.inbox ++ [ev] ↔
            (p.1.readyState = WS_OPEN ∧ p.1.collection = some ev.collection))) := by
  intro hclaim
  have h := hclaim [⟨WS_OPEN, some "Other", []⟩]
    ⟨"Haptic", .created, "/Haptic/a.md"⟩
    (⟨WS_OPEN, some "Other", []⟩,
     ⟨WS_OPEN, some "Other", [⟨"Haptic", .created, "/Haptic/a.md"⟩]⟩)
    (by decide)
  have h2 := h.mp (by decide)
  exact absurd h2.2 (by decide)

/-- **C3 (amended).** `broadcastChange` delivers the event to an observer
exactly when its transport is `OPEN`, regardless of its subscribed
collection; each open observer receives exactly one copy appended to its
inbox, observers with a non-open transport are untouched, and the client
set keeps its size — so one closed or failed transport cannot affect
delivery to the others. -/
theorem broadcast_delivery_semantics (clients : List Client) (ev : ChangeEvent) :
    (broadcastChange clients ev).length = clients.length ∧
    ∀ p ∈ clients.zip (broadcastChange clients ev),
      (p.1.readyState = WS_OPEN → p.2 = { p.1 with inbox := p.1.inbox ++ [ev] }) ∧
      (p.1.readyState ≠ WS_OPEN → p.2 = p.1) := by
  refine ⟨by simp [broadcastChange], ?_⟩
  intro p hp
  have hb : broadcastChange clients ev = clients.map (fun c =>
      if c.readyState = WS_OPEN then { c with inbox := c.inbox ++ [ev] } else c) := rfl
  rw [hb] at hp
  have hp2 : p.2 = (fun c =>
      if c.readyState = WS_OPEN then { c with inbox := c.inbox ++ [ev] } else c) p.1 :=
    mem_zip_map (fun c =>
      if c.readyState = WS_OPEN then { c with inbox := c.inbox ++ [ev] } else c)
      clients p hp
  constructor
  · intro hopen
    rw [hp2]
    simp [hopen]
  · intro hclosed
    rw [hp2]
    simp [hclosed]

/-- Witness for the amended C3: two clients, one open and one closed; the
open one gets exactly one copy. -/
theorem broadcast_delivery_semantics_witness :
    ((⟨WS_OPEN, some "Haptic", []⟩, ⟨WS_OPEN, some "Haptic",
        [⟨"Haptic", .created, "/Haptic/a.md"⟩]⟩) : Client × Client) ∈
      ([⟨WS_OPEN, some "Haptic", []⟩, ⟨3, none, []⟩] : List Client).zip
        (broadcastChange [⟨WS_OPEN, some "Haptic", []⟩, ⟨3, none, []⟩]
          ⟨"Haptic", .created, "/Haptic/a.md"⟩) ∧
    (⟨WS_OPEN, some "Haptic", [⟨"Haptic", .created, "/Haptic/a.md"⟩]⟩ : Client) =
      { (⟨WS_OPEN, some "Haptic", []⟩ : Client) with
          inbox := ([] : List ChangeEvent) ++ [⟨"Haptic", .created, "/Haptic/a.md"⟩] } :=
  ⟨by decide,
   ((broadcast_delivery_semantics [⟨WS_OPEN, some "Haptic", []⟩, ⟨3, none, []⟩]
      ⟨"Haptic", .created, "/Haptic/a.md"⟩).2
      (⟨WS_OPEN, some "Haptic", []⟩, ⟨WS_OPEN, some "Haptic",
        [⟨"Haptic", .created, "/Haptic/a.md"⟩]⟩) (by decide)).1 rfl⟩

/-! ## Lemmas: filesystem operations -/

theorem statFs_nil (t : FsTree) : statFs [] t = .ok t := rfl

theorem statFs_cons_dir (n : String) (rest : List String)
    (cs : List (String × FsTree)) :
    statFs (n :: rest) (.dir cs) =
      (match lookupEntry cs n with
       | none => .error .enoent
       | some t' => statFs rest t') := rfl

theorem lookupEntry_replace {cs : List (String × FsTree)} {n : String}
    {t0 : FsTree} (h : lookupEntry cs n = some t0) (t : FsTree) :
    lookupEntry (replaceEntry cs n t) n = some t := by
  induction cs with
  | nil => simp [lookupEntry, List.find?] at h
  | cons e cs ih =>
    by_cases heq : (e.1 == n) = true
    · have hrep : replaceEntry (e :: cs) n t = (n, t) :: replaceEntry cs n t := by
        unfold replaceEntry
        rw [List.map_cons, if_pos heq]
      rw [hrep]
      simp [lookupEntry, List.find?]
    · have hrep : replaceEntry (e :: cs) n t = e :: replaceEntry cs n t := by
        unfold replaceEntry
        rw [List.map_cons, if_neg heq]
      rw [hrep]
      have hlook : lookupEntry (e :: cs) n = lookupEntry cs n := by
        simp [lookupEntry, List.find?, heq]
      rw [hlook] at h
      have : lookupEntry (e :: replaceEntry cs n t) n
          = lookupEntry (replaceEntry cs n t) n := by
        simp [lookupEntry, List.find?, heq]
      rw [this]
      exact ih h

theorem lookupEntry_append_of_none {cs ds : List (String × FsTree)} {n : String}
    (h : lookupEntry cs n = none) :
    lookupEntry (cs ++ ds) n = lookupEntry ds n := by
  have hfind : cs.find? (fun e => e.1 == n) = none := by
    unfold lookupEntry at h
    cases hf : cs.find? (fun e => e.1 == n) with
    | none => rfl
    | some e => rw [hf] at h; cases h
  unfold lookupEntry
  rw [List.find?_append, hfind, Option.none_or]

theorem mkdirpFs_cons_dir (n : String) (rest : List String)
    (cs : List (String × FsTree)) :
    mkdirpFs (n :: rest) (.dir cs) =
      (match lookupEntry cs n with
       | some t' =>
         match mkdirpFs rest t' with
         | .ok t'' => Except.ok (.dir (replaceEntry cs n t''))
         | .error e => .error e
       | none =>
         match mkdirpFs rest (.dir []) with
         | .ok t'' => Except.ok (.dir (cs ++ [(n, t'')]))
         | .error e => .error e) := rfl

theorem mkdirp_fresh : ∀ segs : List String,
    ∃ t, mkdirpFs segs (.dir []) = .ok t ∧ statFs segs t = .ok (.dir []) := by
  intro segs
  induction segs with
  | nil => exact ⟨.dir [], rfl, rfl⟩
  | cons n rest ih =>
    obtain ⟨t, h1, h2⟩ := ih
    refine ⟨.dir [(n, t)], ?_, ?_⟩
    · simp only [mkdirpFs_cons_dir, show lookupEntry [] n = none from rfl, h1,
        List.nil_append]
    · rw [statFs_cons_dir]
      rw [show lookupEntry [(n, t)] n = some t from by
        simp [lookupEntry, List.find?]]
      exact h2

theorem stat_enoent_mkdirp : ∀ {segs : List String} {t : FsTree},
    statFs segs t = .error .enoent →
    ∃ t', mkdirpFs segs t = .ok t' ∧ statFs segs t' = .ok (.dir []) := by
  intro segs
  induction segs with
  | nil => intro t h; cases h
  | cons n rest ih =>
    intro t h
    cases t with
    | file c => cases h
    | dir cs =>
      rw [statFs_cons_dir] at h
      cases hl : lookupEntry cs n with
      | none =>
        obtain ⟨t2, h1, h2⟩ := mkdirp_fresh rest
        refine ⟨.dir (cs ++ [(n, t2)]), ?_, ?_⟩
        · simp only [mkdirpFs_cons_dir, hl, h1]
        · rw [statFs_cons_dir, lookupEntry_append_of_none hl]
          rw [show lookupEntry [(n, t2)] n = some t2 from by
            simp [lookupEntry, List.find?]]
          exact h2
      | some t' =>
        rw [hl] at h
        obtain ⟨t'', h1, h2⟩ := ih h
        refine ⟨.dir (replaceEntry cs n t''), ?_, ?_⟩
        · simp only [mkdirpFs_cons_dir, hl, h1]
        · rw [statFs_cons_dir, lookupEntry_replace hl t'']
          exact h2

theorem readdir_of_stat {segs : List String} {t : FsTree}
    {cs : List (String × FsTree)} (h : statFs segs t = .ok (.dir cs)) :
    readdirFs segs t = .ok (cs.map (·.1)) := by
  unfold readdirFs
  rw [h]

/-! ## Claims C7, C8, C10 -/

/-- **C7.** Creating a folder at an existing path fails with a `409`
conflict and performs no filesystem mutation and publishes no event; the
directory sub-case and the file sub-case are reported with distinct
outcomes; only when the target is absent (`ENOENT`) is the directory
created together with all missing ancestors, with one `created` event. -/
theorem folder_create_conflict (cfg : Config) (fsys : FsTree)
    (folderPath : String) (p : Prepared) (f : String)
    (hne : folderPath ≠ "")
    (hres : resolveFsPathFromApiPath cfg folderPath = .ok p f) :
    (∀ cs, statFs (splitPathSegs f) fsys = .ok (.dir cs) →
      postFolder cfg fsys folderPath = ⟨.conflictDir, fsys, []⟩) ∧
    (∀ c, statFs (splitPathSegs f) fsys = .ok (.file c) →
      postFolder cfg fsys folderPath = ⟨.conflictFile, fsys, []⟩) ∧
    (Resp.conflictDir ≠ Resp.conflictFile) ∧
    (statFs (splitPathSegs f) fsys = .error .enoent →
      ∃ fs', mkdirpFs (splitPathSegs f) fsys = .ok fs' ∧
        postFolder cfg fsys folderPath =
          ⟨.createdResp, fs', [⟨cfg.rootName, .created, p.normalizedPath⟩]⟩ ∧
        statFs (splitPathSegs f) fs' = .ok (.dir [])) := by
  unfold postFolder
  rw [if_neg hne, hres]
  dsimp only
  refine ⟨?_, ?_, by decide, ?_⟩
  · intro cs hstat
    rw [hstat]
  · intro c hstat
    rw [hstat]
  · intro hstat
    obtain ⟨fs', h1, h2⟩ := stat_enoent_mkdirp hstat
    refine ⟨fs', h1, ?_, h2⟩
    rw [hstat]
    dsimp only
    rw [h1]

/-- Witness for C7: a file conflict at `/Haptic/notes/a.md` and a creation
at `/Haptic/sub`. -/
theorem folder_create_conflict_witness :
    postFolder sampleConfig sampleNotesFs "/Haptic/notes/a.md"
      = ⟨.conflictFile, sampleNotesFs, []⟩ ∧
    statFs (splitPathSegs "/srv/Haptic/notes/a.md") sampleNotesFs
      = .ok (.file "hello") :=
  ⟨((folder_create_conflict sampleConfig sampleNotesFs "/Haptic/notes/a.md"
      ⟨"/Haptic/notes/a.md", "/Haptic/notes/a.md", "/Haptic/notes/a.md"⟩
      "/srv/Haptic/notes/a.md" (by decide) (by decide)).2.1 "hello" (by rfl)),
   by rfl⟩

/-- **C8.** A delete request whose path resolves to exactly the storage
root fails with `403 Forbidden` and removes nothing, for both values of the
recursive flag (hypotheses: the root exists on disk, which startup
guarantees by creating it). -/
theorem delete_root_forbidden (cfg : Config) (fsys : FsTree)
    (rawPath : String) (p : Prepared) (rec : Bool) (t : FsTree)
    (hne : rawPath ≠ "")
    (hres : resolveFsPathFromApiPath cfg rawPath = .ok p (volResolved cfg))
    (hstat : statFs (splitPathSegs (volResolved cfg)) fsys = .ok t) :
    deleteMarkdown cfg fsys rawPath rec = ⟨.forbiddenRoot, fsys, []⟩ ∧
    statusOf .forbiddenRoot = 403 := by
  refine ⟨?_, rfl⟩
  unfold deleteMarkdown
  rw [if_neg hne, hres]
  dsimp only
  rw [hstat]
  dsimp only
  rw [if_pos rfl]

/-- Witness for C8 at the sample deployment, for both flag values. -/
theorem delete_root_forbidden_witness :
    deleteMarkdown sampleConfig sampleFs "/Haptic" false
      = ⟨.forbiddenRoot, sampleFs, []⟩ ∧
    deleteMarkdown sampleConfig sampleFs "/Haptic" true
      = ⟨.forbiddenRoot, sampleFs, []⟩ :=
  ⟨(delete_root_forbidden sampleConfig sampleFs "/Haptic"
      ⟨"/Haptic", "/Haptic", "/Haptic"⟩ false (.dir []) (by decide) (by decide)
      (by rfl)).1,
   (delete_root_forbidden sampleConfig sampleFs "/Haptic"
      ⟨"/Haptic", "/Haptic", "/Haptic"⟩ true (.dir []) (by decide) (by decide)
      (by rfl)).1⟩

/-- **C10.** The emptiness check of non-recursive delete uses the raw
`fs.readdir`, which counts hidden entries: a non-root directory whose
entries all begin with `.` fails non-recursive deletion with the not-empty
error, even though the name listing and the built tree of that directory
are both empty. -/
theorem hidden_entries_block_delete (cfg : Config) (fsys : FsTree)
    (rawPath : String) (p : Prepared) (f : String)
    (cs : List (String × FsTree))
    (hne : rawPath ≠ "")
    (hres : resolveFsPathFromApiPath cfg rawPath = .ok p f)
    (hstat : statFs (splitPathSegs f) fsys = .ok (.dir cs))
    (hroot : f ≠ volResolved cfg)
    (hcs : cs ≠ [])
    (hhidden : ∀ e ∈ cs, strStartsWith e.1 "." = true) :
    deleteMarkdown cfg fsys rawPath false = ⟨.notEmptyResp, fsys, []⟩ ∧
    getNames cfg fsys (some rawPath) = .okOut [] ∧
    buildFileTree cfg (.dir cs) "" = [] := by
  refine ⟨?_, ?_, ?_⟩
  · unfold deleteMarkdown
    rw [if_neg hne, hres]
    try dsimp only
    rw [hstat]
    try dsimp only
    rw [if_neg hroot]
    try dsimp only
    rw [if_pos (by decide : (!false) = true)]
    rw [readdir_of_stat hstat]
    try dsimp only
    rw [if_pos (by simpa using List.length_pos.mpr hcs)]
  · have hfil : cs.filter (fun e => !(strStartsWith e.1 ".")) = [] := by
      rw [List.filter_eq_nil_iff]
      intro e he
      simp [hhidden e he]
    unfold getNames
    show (match resolveFsPathFromApiPath cfg rawPath with
      | ResolveOutcome.invalid => NamesOut.errOut Resp.invalidPath
      | ResolveOutcome.escapeError => NamesOut.errOut Resp.escape
      | ResolveOutcome.ok prepared fsPath => namesAt fsys fsPath)
      = NamesOut.okOut []
    rw [hres]
    show namesAt fsys f = NamesOut.okOut []
    unfold namesAt
    rw [hstat]
    show NamesOut.okOut (((cs.filter (fun e => !(strStartsWith e.1 "."))).mergeSort
      (fun a b => ciLe a.1 b.1)).map (·.1)) = NamesOut.okOut []
    rw [hfil]
    simp [List.mergeSort_nil]
  · rw [buildFileTree]
    have hfil : (sortEntries cs).filter (fun e => !(strStartsWith e.1 ".")) = [] := by
      rw [List.filter_eq_nil_iff]
      intro e he
      have hmem : e ∈ cs := List.mem_mergeSort.mp he
      simp [hhidden e hmem]
    rw [hfil]
    rfl

/-- Witness for C10: `/srv/Haptic/d` holds only `.git` and `.env`. -/
theorem hidden_entries_block_delete_witness :
    deleteMarkdown sampleConfig sampleHiddenFs "/Haptic/d" false
      = ⟨.notEmptyResp, sampleHiddenFs, []⟩ ∧
    getNames sampleConfig sampleHiddenFs (some "/Haptic/d") = .okOut [] ∧
    buildFileTree sampleConfig
      (.dir [(".git", .dir []), (".env", .file "SECRET=1")]) "" = [] :=
  hidden_entries_block_delete sampleConfig sampleHiddenFs "/Haptic/d"
    ⟨"/Haptic/d", "/Haptic/d", "/Haptic/d"⟩ "/srv/Haptic/d"
    [(".git", .dir []), (".env", .file "SECRET=1")]
    (by decide) (by decide) (by rfl) (by decide) (by simp) (by decide)

/-! ## Claim C2: event discipline of the mutating routes -/

theorem postMarkdown_discipline (cfg : Config) (fsys : FsTree) (fp md : String) :
    ((postMarkdown cfg fsys fp md).resp = .createdResp →
      ∃ p f, resolveFsPathFromApiPath cfg fp = .ok p f ∧
        statFs (splitPathSegs f) fsys = .error .enoent ∧
        (postMarkdown cfg fsys fp md).events
          = [⟨cfg.rootName, .created, p.normalizedPath⟩]) ∧
    ((postMarkdown cfg fsys fp md).resp = .updatedResp →
      ∃ p f, resolveFsPathFromApiPath cfg fp = .ok p f ∧
        (∃ t0, statFs (splitPathSegs f) fsys = .ok t0) ∧
        (postMarkdown cfg fsys fp md).events
          = [⟨cfg.rootName, .updated, p.normalizedPath⟩]) ∧
    ((postMarkdown cfg fsys fp md).resp ≠ .createdResp →
      (postMarkdown cfg fsys fp md).resp ≠ .updatedResp →
      (postMarkdown cfg fsys fp md).events = []) := by
  unfold postMarkdown postWrite
  split
  · exact ⟨fun h => absurd h (by simp), fun h => absurd h (by simp), fun _ _ => rfl⟩
  · split
    · exact ⟨fun h => absurd h (by simp), fun h => absurd h (by simp), fun _ _ => rfl⟩
    · exact ⟨fun h => absurd h (by simp), fun h => absurd h (by simp), fun _ _ => rfl⟩
    · rename_i prepared fsPath hres
      split
      · rename_i hstat
        split
        · exact ⟨fun h => absurd h (by simp), fun h => absurd h (by simp), fun _ _ => rfl⟩
        · split
          · exact ⟨fun h => absurd h (by simp), fun h => absurd h (by simp), fun _ _ => rfl⟩
          · exact ⟨fun _ => ⟨prepared, fsPath, hres, hstat, rfl⟩,
                   fun h => absurd h (by simp), fun h _ => absurd rfl h⟩
      · exact ⟨fun h => absurd h (by simp), fun h => absurd h (by simp), fun _ _ => rfl⟩
      · rename_i t0 hstat
        split
        · exact ⟨fun h => absurd h (by simp), fun h => absurd h (by simp), fun _ _ => rfl⟩
        · split
          · exact ⟨fun h => absurd h (by simp), fun h => absurd h (by simp), fun _ _ => rfl⟩
          · exact ⟨fun h => absurd h (by simp),
                   fun _ => ⟨prepared, fsPath, hres, ⟨t0, hstat⟩, rfl⟩,
                   fun _ h => absurd rfl h⟩

theorem putMarkdown_discipline (cfg : Config) (fsys : FsTree) (fp md : String) :
    ((putMarkdown cfg fsys fp md).resp = .updatedResp →
      ∃ p f, resolveFsPathFromApiPath cfg fp = .ok p f ∧
        (putMarkdown cfg fsys fp md).events
          = [⟨cfg.rootName, .updated, p.normalizedPath⟩]) ∧
    ((putMarkdown cfg fsys fp md).resp ≠ .updatedResp →
      (putMarkdown cfg fsys fp md).events = []) := by
  unfold putMarkdown
  split
  · exact ⟨fun h => absurd h (by simp), fun _ => rfl⟩
  · split
    · exact ⟨fun h => absurd h (by simp), fun _ => rfl⟩
    · exact ⟨fun h => absurd h (by simp), fun _ => rfl⟩
    · rename_i prepared fsPath hres
      split
      · exact ⟨fun h => absurd h (by simp), fun _ => rfl⟩
      · exact ⟨fun h => absurd h (by simp), fun _ => rfl⟩
      · split
        · exact ⟨fun h => absurd h (by simp), fun _ => rfl⟩
        · exact ⟨fun _ => ⟨prepared, fsPath, hres, rfl⟩,
                 fun h => absurd rfl h⟩

theorem postFolder_discipline (cfg : Config) (fsys : FsTree) (fp : String) :
    ((postFolder cfg fsys fp).resp = .createdResp →
      ∃ p f, resolveFsPathFromApiPath cfg fp = .ok p f ∧
        statFs (splitPathSegs f) fsys = .error .enoent ∧
        (postFolder cfg fsys fp).events
          = [⟨cfg.rootName, .created, p.normalizedPath⟩]) ∧
    ((postFolder cfg fsys fp).resp ≠ .createdResp →
      (postFolder cfg fsys fp).events = []) := by
  unfold postFolder
  split
  · exact ⟨fun h => absurd h (by simp), fun _ => rfl⟩
  · split
    · exact ⟨fun h => absurd h (by simp), fun _ => rfl⟩
    · exact ⟨fun h => absurd h (by simp), fun _ => rfl⟩
    · rename_i prepared fsPath hres
      split
      · exact ⟨fun h => absurd h (by simp), fun _ => rfl⟩
      · exact ⟨fun h => absurd h (by simp), fun _ => rfl⟩
      · rename_i hstat
        split
        · exact ⟨fun _ => ⟨prepared, fsPath, hres, hstat, rfl⟩,
                 fun h => absurd rfl h⟩
        · exact ⟨fun h => absurd h (by simp), fun _ => rfl⟩
      · exact ⟨fun h => absurd h (by simp), fun _ => rfl⟩

theorem deleteMarkdown_discipline (cfg : Config) (fsys : FsTree)
    (rp : String) (rec : Bool) :
    (((deleteMarkdown cfg fsys rp rec).resp = .deletedDir ∨
        (deleteMarkdown cfg fsys rp rec).resp = .deletedFile) →
      ∃ p f, resolveFsPathFromApiPath cfg rp = .ok p f ∧
        (deleteMarkdown cfg fsys rp rec).events
          = [⟨cfg.rootName, .deleted, p.normalizedPath⟩]) ∧
    ((deleteMarkdown cfg fsys rp rec).resp ≠ .deletedDir →
      (deleteMarkdown cfg fsys rp rec).resp ≠ .deletedFile →
      (deleteMarkdown cfg fsys rp rec).events = []) := by
  unfold deleteMarkdown deleteDirTail
  split
  · exact ⟨fun h => absurd h (by simp), fun _ _ => rfl⟩
  · split
    · exact ⟨fun h => absurd h (by simp), fun _ _ => rfl⟩
    · exact ⟨fun h => absurd h (by simp), fun _ _ => rfl⟩
    · rename_i prepared fsPath hres
      split
      · exact ⟨fun h => absurd h (by simp), fun _ _ => rfl⟩
      · exact ⟨fun h => absurd h (by simp), fun _ _ => rfl⟩
      · split
        · exact ⟨fun h => absurd h (by simp), fun _ _ => rfl⟩
        · split
          · split
            · split
              · exact ⟨fun h => absurd h (by simp), fun _ _ => rfl⟩
              · split
                · exact ⟨fun h => absurd h (by simp), fun _ _ => rfl⟩
                · split
                  · exact ⟨fun _ => ⟨prepared, fsPath, hres, rfl⟩,
                           fun h _ => absurd rfl h⟩
                  · exact ⟨fun h => absurd h (by simp), fun _ _ => rfl⟩
            · split
              · exact ⟨fun _ => ⟨prepared, fsPath, hres, rfl⟩,
                       fun h _ => absurd rfl h⟩
              · exact ⟨fun h => absurd h (by simp), fun _ _ => rfl⟩
          · split
            · exact ⟨fun _ => ⟨prepared, fsPath, hres, rfl⟩,
                     fun _ h => absurd rfl h⟩
            · exact ⟨fun h => absurd h (by simp), fun _ _ => rfl⟩

/-- **C2.** Each mutating route publishes exactly one ChangeEvent on
success, whose `changeType` matches the operation — `created` for a write
to an absent target and for folder creation, `updated` for an overwriting
write and for the PUT variant, `deleted` for deletion — and publishes no
event whenever the operation fails at any stage. -/
theorem mutation_event_discipline (cfg : Config) (fsys : FsTree) :
    (∀ fp md,
      ((postMarkdown cfg fsys fp md).resp = .createdResp →
        ∃ p f, resolveFsPathFromApiPath cfg fp = .ok p f ∧
          statFs (splitPathSegs f) fsys = .error .enoent ∧
          (postMarkdown cfg fsys fp md).events
            = [⟨cfg.rootName, .created, p.normalizedPath⟩]) ∧
      ((postMarkdown cfg fsys fp md).resp = .updatedResp →
        ∃ p f, resolveFsPathFromApiPath cfg fp = .ok p f ∧
          (∃ t0, statFs (splitPathSegs f) fsys = .ok t0) ∧
          (postMarkdown cfg fsys fp md).events
            = [⟨cfg.rootName, .updated, p.normalizedPath⟩]) ∧
      ((postMarkdown cfg fsys fp md).resp ≠ .createdResp →
        (postMarkdown cfg fsys fp md).resp ≠ .updatedResp →
        (postMarkdown cfg fsys fp md).events = [])) ∧
    (∀ fp md,
      ((putMarkdown cfg fsys fp md).resp = .updatedResp →
        ∃ p f, resolveFsPathFromApiPath cfg fp = .ok p f ∧
          (putMarkdown cfg fsys fp md).events
            = [⟨cfg.rootName, .updated, p.normalizedPath⟩]) ∧
      ((putMarkdown cfg fsys fp md).resp ≠ .updatedResp →
        (putMarkdown cfg fsys fp md).events = [])) ∧
    (∀ fp,
      ((postFolder cfg fsys fp).resp = .createdResp →
        ∃ p f, resolveFsPathFromApiPath cfg fp = .ok p f ∧
          statFs (splitPathSegs f) fsys = .error .enoent ∧
          (postFolder cfg fsys fp).events
            = [⟨cfg.rootName, .created, p.normalizedPath⟩]) ∧
      ((postFolder cfg fsys fp).resp ≠ .createdResp →
        (postFolder cfg fsys fp).events = [])) ∧
    (∀ rp rec,
      (((deleteMarkdown cfg fsys rp rec).resp = .deletedDir ∨
          (deleteMarkdown cfg fsys rp rec).resp = .deletedFile) →
        ∃ p f, resolveFsPathFromApiPath cfg rp = .ok p f ∧
          (deleteMarkdown cfg fsys rp rec).events
            = [⟨cfg.rootName, .deleted, p.normalizedPath⟩]) ∧
      ((deleteMarkdown cfg fsys rp rec).resp ≠ .deletedDir →
        (deleteMarkdown cfg fsys rp rec).resp ≠ .deletedFile →
        (deleteMarkdown cfg fsys rp rec).events = [])) :=
  ⟨fun fp md => postMarkdown_discipline cfg fsys fp md,
   fun fp md => putMarkdown_discipline cfg fsys fp md,
   fun fp => postFolder_discipline cfg fsys fp,
   fun rp rec => deleteMarkdown_discipline cfg fsys rp rec⟩

/-- Witness for C2: a creating write emits one `created` event; a failed
write (invalid path) emits none. -/
theorem mutation_event_discipline_witness :
    (∃ p f, resolveFsPathFromApiPath sampleConfig "/Haptic/notes/a.md"
        = .ok p f ∧
      statFs (splitPathSegs f) sampleFs = .error .enoent ∧
      (postMarkdown sampleConfig sampleFs "/Haptic/notes/a.md" "hello").events
        = [⟨"Haptic", .created, p.normalizedPath⟩]) ∧
    (postMarkdown sampleConfig sampleFs "   " "hello").events = [] :=
  ⟨((mutation_event_discipline sampleConfig sampleFs).1
      "/Haptic/notes/a.md" "hello").1 (by rfl),
   (((mutation_event_discipline sampleConfig sampleFs).1 "   " "hello").2.2
      (by decide) (by decide))⟩

/-! ## Claim C9: tree builder -/

theorem ciLe_trans (a b c : String) (hab : ciLe a b = true)
    (hbc : ciLe b c = true) : ciLe a c = true := by
  simp only [ciLe, decide_eq_true_eq] at *
  exact le_trans hab hbc

theorem ciLe_total (a b : String) : (ciLe a b || ciLe b a) = true := by
  simp only [ciLe, Bool.or_eq_true, decide_eq_true_eq]
  exact le_total _ _

theorem sortEntries_pairwise (cs : List (String × FsTree)) :
    (sortEntries cs).Pairwise (fun a b => ciLe a.1 b.1 = true) := by
  have htrans : ∀ (a b c : String × FsTree), ciLe a.1 b.1 = true →
      ciLe b.1 c.1 = true → ciLe a.1 c.1 = true :=
    fun a b c hab hbc => ciLe_trans _ _ _ hab hbc
  have htotal : ∀ (a b : String × FsTree),
      (ciLe a.1 b.1 || ciLe b.1 a.1) = true :=
    fun a b => ciLe_total _ _
  exact List.sorted_mergeSort htrans htotal cs

theorem treeOk_aux (cfg : Config) : ∀ (n : Nat) (t : FsTree),
    sizeOf t ≤ n → ∀ (rel : String),
      (buildFileTree cfg t rel).Pairwise
        (fun a b => ciLe a.name b.name = true) ∧
      ∀ it ∈ buildFileTree cfg t rel, ItemOk it := by
  intro n
  induction n with
  | zero =>
    intro t ht
    exact absurd ht (by cases t <;> simp)
  | succ n ih =>
    intro t ht rel
    cases t with
    | file c =>
      rw [buildFileTree]
      exact ⟨List.Pairwise.nil, by simp⟩
    | dir cs =>
      rw [buildFileTree]
      have hkeepP : ((sortEntries cs).filter
          (fun e => !(strStartsWith e.1 "."))).Pairwise
          (fun a b => ciLe a.1 b.1 = true) :=
        (sortEntries_pairwise cs).sublist (List.filter_sublist _) |>.imp id
      constructor
      · rw [List.map_attach, List.pairwise_pmap]
        refine hkeepP.imp ?_
        intro a b hab h1 h2
        obtain ⟨na, ta⟩ := a
        obtain ⟨nb, tb⟩ := b
        cases ta <;> cases tb <;> simpa using hab
      · intro it hit
        rw [List.map_attach, List.mem_pmap] at hit
        obtain ⟨a, ha, rfl⟩ := hit
        have hnothid : strStartsWith a.1 "." = false := by
          have := (List.mem_filter.mp ha).2
          simpa using this
        have hamem : a ∈ cs := List.mem_mergeSort.mp (List.mem_of_mem_filter ha)
        have hsize : sizeOf a.2 ≤ n := by
          have h1 : sizeOf a < sizeOf cs := List.sizeOf_lt_of_mem hamem
          have h2 : sizeOf a.2 < sizeOf a := by
            obtain ⟨x, y⟩ := a
            simp
          have h3 : sizeOf (FsTree.dir cs) ≤ n + 1 := ht
          simp only [FsTree.dir.sizeOf_spec] at h3
          omega
        obtain ⟨na, ta⟩ := a
        cases ta with
        | file c =>
          refine ItemOk.intro _ ?_ ?_ ?_
          · simpa using hnothid
          · intro l hl
            exact absurd hl (by simp)
          · intro l hl
            exact absurd hl (by simp)
        | dir cs' =>
          have hIH := ih (FsTree.dir cs') hsize
            (if rel = "" then na else pathJoin [rel, na])
          refine ItemOk.intro _ ?_ ?_ ?_
          · simpa using hnothid
          · intro l hl
            have hleq : l = buildFileTree cfg (FsTree.dir cs')
                (if rel = "" then na else pathJoin [rel, na]) := by
              have := hl.symm
              simpa using this
            rw [hleq]
            exact hIH.1
          · intro l hl x hx
            have hleq : l = buildFileTree cfg (FsTree.dir cs')
                (if rel = "" then na else pathJoin [rel, na]) := by
              have := hl.symm
              simpa using this
            rw [hleq] at hx
            exact hIH.2 x hx

/-- **C9.** For every directory snapshot, the built tree contains no node,
at any depth, whose name starts with `.`, and at every level the sibling
nodes appear in case-insensitive ascending order of their names (each node
satisfies `ItemOk`, which states both properties recursively). -/
theorem tree_builder_clean (cfg : Config) (t : FsTree) (relativeDir : String) :
    (buildFileTree cfg t relativeDir).Pairwise
      (fun a b => ciLe a.name b.name = true) ∧
    ∀ it ∈ buildFileTree cfg t relativeDir, ItemOk it :=
  treeOk_aux cfg (sizeOf t) t (Nat.le_refl _) relativeDir

/-- Witness instantiating C9 on a concrete directory snapshot. -/
theorem tree_builder_clean_witness :
    (buildFileTree sampleConfig
        (.dir [("b", .file "1"), (".hid", .file "2"), ("A", .dir [])]) "").Pairwise
      (fun a b => ciLe a.name b.name = true) ∧
    ∀ it ∈ buildFileTree sampleConfig
        (.dir [("b", .file "1"), (".hid", .file "2"), ("A", .dir [])]) "",
      ItemOk it :=
  tree_builder_clean sampleConfig
    (.dir [("b", .file "1"), (".hid", .file "2"), ("A", .dir [])]) ""

end HapticSpec
